import Mathlib

/-!
Shallow embedding of the X6 graph model (`src/packages/x6/src/model/model.ts`)
together with the parts of its collaborators (`Cell`, `Edge`, `Collection`,
`Dijkstra`) that the model operations use.  Collaborator behaviour that is not
implemented in `model.ts` itself is modelled from the specification and marked
as such on each definition.  Unbounded recursion of the source is represented
with explicit fuel so that every definition is executable and reduces; the
fuel chosen by each wrapper is ample for the inputs the theorems evaluate.
-/

namespace X6

/-- Modelled from the spec: an edge terminal is either a fixed point or a
reference to another cell (by id); the `Edge` class is not part of
`model.ts`. -/
inductive Terminal where
  | pt (x y : Int)
  | ref (cellId : String)
deriving Repr, DecidableEq

/-- Modelled from the spec: the cell data that the model operations consult.
A cell is a node or an edge (`edge = true`); edges carry optional
source/target terminals; `owned` stands for the `cell.model` back reference
being set; `children` is the containment forest used by recursive insertion
and by descendant collection. -/
inductive Cell where
  | mk (id : String) (edge : Bool) (source target : Option Terminal)
      (zIndex : Option Int) (owned : Bool) (children : List Cell)
deriving Repr

/-- The cell's id (`cell.id`). -/
def Cell.id : Cell → String
  | .mk i _ _ _ _ _ _ => i

/-- Whether the cell is an edge (`cell.isEdge()`). -/
def Cell.isEdge : Cell → Bool
  | .mk _ e _ _ _ _ _ => e

/-- Whether the cell is a node (`cell.isNode()`); every cell is exactly one of
node or edge. -/
def Cell.isNode (c : Cell) : Bool := !c.isEdge

/-- The edge's source terminal. -/
def Cell.source : Cell → Option Terminal
  | .mk _ _ s _ _ _ _ => s

/-- The edge's target terminal. -/
def Cell.target : Cell → Option Terminal
  | .mk _ _ _ t _ _ _ => t

/-- The cell's z-index (`cell.zIndex`), absent until assigned. -/
def Cell.zIndex : Cell → Option Int
  | .mk _ _ _ _ z _ _ => z

/-- Whether the `cell.model` back reference is set. -/
def Cell.owned : Cell → Bool
  | .mk _ _ _ _ _ o _ => o

/-- The cell's direct children. -/
def Cell.children : Cell → List Cell
  | .mk _ _ _ _ _ _ ch => ch

/-- Options consumed by removal (`Collection.RemoveOptions`): the `clear` and
`disconnectEdges` flags read by `afterCellRemoved`. -/
structure RemoveOptions where
  clear : Bool := false
  disconnectEdges : Bool := false
deriving Repr, DecidableEq

/-- Options consumed by insertion (`Model.AddOptions`): only the `dry` flag is
read by `prepareCell`; position hints are not exercised by any claim. -/
structure AddOptions where
  dry : Bool := false
deriving Repr, DecidableEq

/-- Options of `getConnectedEdges`.  `incoming`/`outgoing` are tri-state in the
source (`undefined` versus an explicit boolean), hence `Option Bool`; the
other flags are plain JS-truthiness booleans (`undefined` behaves as
`false`). -/
structure ConnectedEdgesOptions where
  incoming : Option Bool := none
  outgoing : Option Bool := none
  indirect : Bool := false
  deep : Bool := false
  enclosed : Bool := false
deriving Repr, DecidableEq

/-- Options of `getSubGraph` (`Model.GetSubgraphOptions`). -/
structure SubgraphOptions where
  deep : Bool := false
deriving Repr, DecidableEq

/-- Options of `getShortestPath`; the optional per-edge weight function
defaults to the unit weight, which is the only weight any claim exercises. -/
structure ShortestPathOptions where
  directed : Bool := false
deriving Repr, DecidableEq

/-- Events the model republishes, restricted to the data the claims observe:
the identity of added/removed cells, the `clear` flag a removal carried and
the batch bracket events. -/
inductive ModelEvent where
  | cellAdded (id : String)
  | cellRemoved (id : String) (clearFlag : Bool)
  | batchStart (name : String)
  | batchStop (name : String)
deriving Repr, DecidableEq

/-- The model state: the collection's cells (kept in ascending z-index order,
the order `toArray`/`getCells` exposes), the two membership caches `nodes` and
`edges` (key sets of id-keyed objects), the named batch counters and the trace
of emitted events. -/
structure ModelState where
  cells : List Cell
  nodes : List String
  edges : List String
  batches : List (String × Int)
  events : List ModelEvent
deriving Repr

/-- A freshly constructed empty model (`new Model()`). -/
def emptyModel : ModelState := ⟨[], [], [], [], []⟩

/-- The ids of a list of cells. -/
def cellIds (cells : List Cell) : List String := cells.map Cell.id

/-- Modelled from the spec: `Collection.get(id)`, id-indexed lookup. -/
def collGet (cells : List Cell) (id : String) : Option Cell :=
  cells.find? (fun c => c.id = id)

/-- Modelled from the spec: `Collection.has`, id-based membership. -/
def collHas (cells : List Cell) (id : String) : Bool :=
  cells.any (fun c => c.id = id)

/-- Modelled from the spec: the collection keeps its cells ordered by
ascending z-index; insertion places a cell after all cells of equal or lower
z-index (a stable insertion). -/
def insertSorted : List Cell → Cell → List Cell
  | [], c => [c]
  | x :: xs, c =>
    if x.zIndex.getD 0 ≤ c.zIndex.getD 0 then x :: insertSorted xs c
    else c :: x :: xs

/-- Adding a key to an id-keyed JS object used as a set. -/
def cacheInsert (l : List String) (i : String) : List String :=
  if i ∈ l then l else l ++ [i]

/-- Deleting a key from an id-keyed JS object used as a set. -/
def cacheDelete (l : List String) (i : String) : List String :=
  l.filter (fun x => x ≠ i)

/-- Appending an event to the model's emission trace (`notify`). -/
def pushEvent (m : ModelState) (e : ModelEvent) : ModelState :=
  { m with events := m.events ++ [e] }

/-- Modelled from the spec: `edge.getSourceCell()` returns the referenced
cell, or `null` if the terminal is a bare point or the referenced cell no
longer exists in the model. -/
def getSourceCell (m : ModelState) (c : Cell) : Option Cell :=
  match c.source with
  | some (.ref i) => collGet m.cells i
  | _ => none

/-- Modelled from the spec: `edge.getTargetCell()`, symmetric to
`getSourceCell`. -/
def getTargetCell (m : ModelState) (c : Cell) : Option Cell :=
  match c.target with
  | some (.ref i) => collGet m.cells i
  | _ => none

/-- Modelled from the spec: `node.getOutgoingEdges()` — all edges of the
model whose source terminal references the given id, in collection order. -/
def getOutgoingEdges (m : ModelState) (id : String) : List Cell :=
  m.cells.filter (fun c => c.isEdge ∧ c.source = some (.ref id))

/-- Modelled from the spec: `node.getIncomingEdges()` — all edges of the
model whose target terminal references the given id, in collection order. -/
def getIncomingEdges (m : ModelState) (id : String) : List Cell :=
  m.cells.filter (fun c => c.isEdge ∧ c.target = some (.ref id))

mutual
/-- Modelled from the spec: `cell.getDescendants({ deep: true })` — all
transitive children of the cell, parents before their subtrees. -/
def Cell.descendantsOf : Cell → List Cell
  | .mk _ _ _ _ _ _ ch => descList ch

/-- Transitive-children collection over a list of cells. -/
def descList : List Cell → List Cell
  | [] => []
  | c :: cs => c :: (Cell.descendantsOf c ++ descList cs)
end

/-- The `result` array and id `cache` object shared by the closures of
`getConnectedEdges`. -/
structure CollectState where
  result : List Cell
  cache : List String
deriving Repr

/-- The effective `incoming` flag after the preamble of `getConnectedEdges`
(`if incoming == null && outgoing == null, incoming = outgoing = true`). -/
def resolvedIncoming (o : ConnectedEdgesOptions) : Bool :=
  if o.incoming = none ∧ o.outgoing = none then true else o.incoming.getD false

/-- The effective `outgoing` flag after the preamble of
`getConnectedEdges`. -/
def resolvedOutgoing (o : ConnectedEdgesOptions) : Bool :=
  if o.incoming = none ∧ o.outgoing = none then true else o.outgoing.getD false

/-- The recursive `collect` closure of `getConnectedEdges` (model.ts lines
388–425), with explicit fuel consumed at each invocation.  The `forEach` over
the incident edges is a fold; an edge already in the cache is skipped,
otherwise it is pushed and cached and, under `indirect`, recursed into.  The
final block is the edge-to-edge terminal branch: a terminal that is itself an
uncached edge is pushed into the result — without being cached, exactly as in
the source — and recursed into. -/
def collect (m : ModelState) (o : ConnectedEdgesOptions) :
    Nat → CollectState → Cell → Bool → Option CollectState
  | 0, _, _, _ => none
  | fuel + 1, st, cell, isOutgoing =>
    let edges :=
      if isOutgoing then getOutgoingEdges m cell.id else getIncomingEdges m cell.id
    let afterEdges : Option CollectState :=
      edges.foldl
        (fun acc e =>
          match acc with
          | none => none
          | some st =>
            if e.id ∈ st.cache then some st
            else
              let st : CollectState := ⟨st.result ++ [e], st.cache ++ [e.id]⟩
              let a : Option CollectState :=
                if o.indirect then
                  if resolvedIncoming o then collect m o fuel st e false else some st
                else some st
              match a with
              | none => none
              | some st =>
                if o.indirect then
                  if resolvedOutgoing o then collect m o fuel st e true else some st
                else some st)
        (some st)
    match afterEdges with
    | none => none
    | some st =>
      if o.indirect ∧ cell.isEdge then
        match (if isOutgoing then getTargetCell m cell else getSourceCell m cell) with
        | some t =>
          if t.isEdge ∧ t.id ∉ st.cache then
            collect m o fuel ⟨st.result ++ [t], st.cache⟩ t isOutgoing
          else some st
        | none => some st
      else some st

/-- One edge handled by the `collectSub` closure of the `deep` branch: skipped
when cached, skipped when both resolved terminals lie strictly inside the
descendant set and `enclosed` is not requested, otherwise pushed and
cached. -/
def deepCollectEdge (m : ModelState) (o : ConnectedEdgesOptions)
    (embeds : List String) (st : CollectState) (e : Cell) : CollectState :=
  if e.id ∈ st.cache then st
  else
    let internal : Bool :=
      match getSourceCell m e, getTargetCell m e with
      | some s, some t => s.id ∈ embeds ∧ t.id ∈ embeds
      | _, _ => false
    if ¬o.enclosed ∧ internal then st
    else ⟨st.result ++ [e], st.cache ++ [e.id]⟩

/-- The `collectSub` closure of `getConnectedEdges`: all incident edges of one
descendant cell, in one direction. -/
def collectSub (m : ModelState) (o : ConnectedEdgesOptions)
    (embeds : List String) (st : CollectState) (cell : Cell)
    (isOutgoing : Bool) : CollectState :=
  let edges :=
    if isOutgoing then getOutgoingEdges m cell.id else getIncomingEdges m cell.id
  edges.foldl (deepCollectEdge m o embeds) st

/-- The `deep` branch of `getConnectedEdges`: iterate the node's descendants,
skipping edge descendants, and collect their incident edges subject to the
`enclosed` filter. -/
def deepPass (m : ModelState) (o : ConnectedEdgesOptions) (node : Cell)
    (st : CollectState) : CollectState :=
  if o.deep then
    let descendants := node.descendantsOf
    let embeds := cellIds (descendants.filter Cell.isNode)
    descendants.foldl
      (fun st c =>
        if c.isEdge then st
        else
          let st := if resolvedOutgoing o then collectSub m o embeds st c true else st
          if resolvedIncoming o then collectSub m o embeds st c false else st)
      st
  else st

/-- `Model.getConnectedEdges(cell, options)` with explicit fuel for the
`indirect` recursion; `none` means the recursion of the source does not
complete within `fuel` nested `collect` invocations. -/
def getConnectedEdgesFuel (fuel : Nat) (m : ModelState) (node : Cell)
    (o : ConnectedEdgesOptions) : Option (List Cell) :=
  let st : CollectState := ⟨[], []⟩
  let a : Option CollectState :=
    if resolvedOutgoing o then collect m o fuel st node true else some st
  match a with
  | none => none
  | some st =>
    let b : Option CollectState :=
      if resolvedIncoming o then collect m o fuel st node false else some st
    match b with
    | none => none
    | some st => some (deepPass m o node st).result

/-- Total wrapper for the call sites of `getConnectedEdges` that never set
`indirect` (`removeEdges`, `disconnectEdges`, `getSubGraph`): without
`indirect` the `collect` closure never recurses, so one unit of fuel always
suffices and the `getD` default is never taken. -/
def getConnectedEdges (m : ModelState) (node : Cell)
    (o : ConnectedEdgesOptions) : List Cell :=
  (getConnectedEdgesFuel 1 m node o).getD []

/-- The accumulator of `getSubGraph`: the `subgraph` array, the id `cache`
and the `nodes` and `edges` arrays, exactly the four locals of the source. -/
structure SubState where
  subgraph : List Cell
  cache : List String
  nodes : List Cell
  edges : List Cell
deriving Repr

/-- The `collect` closure of `getSubGraph`: push an uncached cell into the
subgraph and into the array of its kind. -/
def subCollect (st : SubState) (c : Cell) : SubState :=
  if c.id ∈ st.cache then st
  else
    { subgraph := st.subgraph ++ [c]
      cache := st.cache ++ [c.id]
      nodes := if c.isNode then st.nodes ++ [c] else st.nodes
      edges := if c.isEdge then st.edges ++ [c] else st.edges }

/-- Pass 1 of `getSubGraph`: collect every input cell and, under `deep`, every
descendant of each input cell. -/
def subPass1 (cells : List Cell) (o : SubgraphOptions) : SubState :=
  cells.foldl
    (fun st c =>
      let st := subCollect st c
      if o.deep then c.descendantsOf.foldl subCollect st else st)
    ⟨[], [], [], []⟩

/-- The edges of the expanded input set of `getSubGraph`: the `edges` array
after pass 1 (input edges plus, under `deep`, descendant edges). -/
def expandedEdges (cells : List Cell) (o : SubgraphOptions) : List Cell :=
  (subPass1 cells o).edges

/-- One endpoint pulled in by pass 2 of `getSubGraph`: an uncached resolved
terminal cell is pushed into the subgraph (and into `nodes` when it is a
node — an edge endpoint goes into the subgraph only, as in the source). -/
def subAddEndpoint (st : SubState) (oc : Option Cell) : SubState :=
  match oc with
  | none => st
  | some c =>
    if c.id ∈ st.cache then st
    else
      { st with
        subgraph := st.subgraph ++ [c]
        cache := st.cache ++ [c.id]
        nodes := if c.isNode then st.nodes ++ [c] else st.nodes }

/-- The pass-2 step of `getSubGraph` on one collected edge: pull in its
resolved source and target cells. -/
def subPass2Step (m : ModelState) (st : SubState) (e : Cell) : SubState :=
  subAddEndpoint (subAddEndpoint st (getSourceCell m e)) (getTargetCell m e)

/-- Pass 2 of `getSubGraph`: for every edge collected in pass 1, pull in its
resolved source and target cells. -/
def subPass2 (m : ModelState) (st : SubState) : SubState :=
  st.edges.foldl (subPass2Step m) st

/-- One candidate edge of pass 3 of `getSubGraph`: added only when uncached
and both of its terminals resolve to cells already in the cache. -/
def subPass3Edge (m : ModelState) (st : SubState) (e : Cell) : SubState :=
  match getSourceCell m e, getTargetCell m e with
  | some s, some t =>
    if e.id ∉ st.cache ∧ s.id ∈ st.cache ∧ t.id ∈ st.cache then
      { st with subgraph := st.subgraph ++ [e], cache := st.cache ++ [e.id] }
    else st
  | _, _ => st

/-- Pass 3 of `getSubGraph`: for every node now in the set, add its connected
edges whose endpoints are both in the set. -/
def subPass3 (m : ModelState) (o : SubgraphOptions) (st : SubState) : SubState :=
  st.nodes.foldl
    (fun st n =>
      (getConnectedEdges m n { deep := o.deep }).foldl (subPass3Edge m) st)
    st

/-- `Model.getSubGraph(cells, options)` (model.ts lines 714–782). -/
def getSubGraph (m : ModelState) (cells : List Cell) (o : SubgraphOptions) :
    List Cell :=
  (subPass3 m o (subPass2 m (subPass1 cells o))).subgraph

/-- Whether both terminals of a cell that resolve at all resolve to nodes
(no edge-to-edge attachment through this cell). -/
def terminalsAreNodes (m : ModelState) (e : Cell) : Bool :=
  (match getSourceCell m e with
   | some s => s.isNode
   | none => true) &&
  (match getTargetCell m e with
   | some t => t.isNode
   | none => true)

/-- The ids of the cells the terminals of `e` resolve to (zero, one or two
entries). -/
def edgeEndpointIds (m : ModelState) (e : Cell) : List String :=
  ((getSourceCell m e).map Cell.id).toList ++ ((getTargetCell m e).map Cell.id).toList

/-- The subgraph accumulator is well formed: the cache holds exactly the ids
of the collected cells, in order. -/
def subStateWF (st : SubState) : Prop := st.cache = cellIds st.subgraph

/-- Every edge already collected has all of its resolved endpoint ids in the
cache. -/
def edgesClosed (m : ModelState) (st : SubState) : Prop :=
  ∀ e ∈ st.subgraph, e.isEdge = true → ∀ i ∈ edgeEndpointIds m e, i ∈ st.cache

/-- Replacing the ownership flag of a cell. -/
def Cell.setOwned : Cell → Bool → Cell
  | .mk i e s t z _ ch, o => .mk i e s t z o ch

/-- Replacing the z-index of a cell. -/
def Cell.setZIndex : Cell → Option Int → Cell
  | .mk i e s t _ o ch, z => .mk i e s t z o ch

/-- Replacing the source terminal of a cell (`edge.setSource`). -/
def Cell.setSource : Cell → Option Terminal → Cell
  | .mk i e _ t z o ch, s => .mk i e s t z o ch

/-- Replacing the target terminal of a cell (`edge.setTarget`). -/
def Cell.setTarget : Cell → Option Terminal → Cell
  | .mk i e s _ z o ch, t => .mk i e s t z o ch

/-- `Model.getMaxZIndex()`: the z-index of the last (highest) cell, `0` when
empty. -/
def getMaxZIndex (m : ModelState) : Int :=
  match m.cells.getLast? with
  | some last => last.zIndex.getD 0
  | none => 0

/-- The z-index assignment step of `prepareCell`: assign `max z-index + 1`
when the cell has no z-index yet. -/
def prepareZIndex (m : ModelState) (c : Cell) : Cell :=
  if c.zIndex = none then c.setZIndex (some (getMaxZIndex m + 1)) else c

/-- `Model.prepareCell(cell, options)`: set the model back reference unless
already owned or the insertion is `dry`, then assign the z-index. -/
def prepareCell (m : ModelState) (c : Cell) (o : AddOptions) : Cell :=
  prepareZIndex m (if ¬c.owned ∧ ¬o.dry then c.setOwned true else c)

/-- `Model.onCellAdded(cell)`: record the cell's id in the cache of its
kind. -/
def onCellAddedCaches (m : ModelState) (c : Cell) : ModelState :=
  if c.isEdge then { m with edges := cacheInsert m.edges c.id }
  else { m with nodes := cacheInsert m.nodes c.id }

/-- Modelled from the spec: `Collection.add` fails silently when the id is
already present, otherwise inserts in z-index order and emits `added`, which
`Model` turns into the cache update and a `cell:added` notification. -/
def collectionAdd (m : ModelState) (c : Cell) : ModelState :=
  if collHas m.cells c.id then m
  else
    let m := { m with cells := insertSorted m.cells c }
    pushEvent (onCellAddedCaches m c) (.cellAdded c.id)

/-- `Model.addCell` on a single cell (model.ts lines 189–202): skip a cell
already present or mid-insertion (the `addings` guard, here the ancestor
chain of the recursion), otherwise prepare, insert, and recursively add every
child.  The fuel dominates the structural depth of the cell, so on actual
cell trees the recursion never truncates. -/
def addCellAux (o : AddOptions) :
    Nat → ModelState → List String → Cell → ModelState
  | 0, m, _, _ => m
  | fuel + 1, m, addings, c =>
    if ¬collHas m.cells c.id ∧ c.id ∉ addings then
      let m1 := collectionAdd m (prepareCell m c o)
      c.children.foldl (fun m ch => addCellAux o fuel m (c.id :: addings) ch) m1
    else m

/-- `Model.addCell(cell, options)` for a single cell; the fuel
`|descendants| + 1` strictly dominates the containment depth. -/
def Model.addCell (m : ModelState) (c : Cell) (o : AddOptions) : ModelState :=
  addCellAux o (c.descendantsOf.length + 1) m [] c

/-- The collection-level part of one removal: delete the cell, drop its id
from the cache of its kind (`onCellRemoved`) and emit the removal event
carrying the `clear` flag. -/
def atomicRemove (m : ModelState) (c : Cell) (opts : RemoveOptions) : ModelState :=
  let m := { m with cells := m.cells.filter (fun x => x.id ≠ c.id) }
  let m :=
    if c.isEdge then { m with edges := cacheDelete m.edges c.id }
    else { m with nodes := cacheDelete m.nodes c.id }
  pushEvent m (.cellRemoved c.id opts.clear)

/-- `Model.disconnectEdges(cell, options)`: for every edge connected to the
cell, replace whichever terminal resolves to a cell with the removed cell's
id by the fixed point `(0, 0)`.  Both terminal cells are read before either
replacement, as in the source. -/
def disconnectEdgesOp (m : ModelState) (c : Cell) : ModelState :=
  (getConnectedEdges m c {}).foldl
    (fun m e =>
      let sourceCell := getSourceCell m e
      let targetCell := getTargetCell m e
      let m :=
        match sourceCell with
        | some sc =>
          if sc.id = c.id then
            { m with
              cells := m.cells.map (fun x =>
                if x.id = e.id then x.setSource (some (.pt 0 0)) else x) }
          else m
        | none => m
      match targetCell with
      | some tc =>
        if tc.id = c.id then
          { m with
            cells := m.cells.map (fun x =>
              if x.id = e.id then x.setTarget (some (.pt 0 0)) else x) }
        else m
      | none => m)
    m

/-- `Model.removeCell` (model.ts lines 226–234) together with the removal
side effects of `onCellRemoved`/`afterCellRemoved` (lines 98–121): an unknown
id is a no-op; otherwise the cell is removed and, unless the removal is part
of a `clear`, either `disconnectEdges` or the default `removeEdges` runs —
the latter removing every connected edge recursively (`removeEdges` is the
fold at the end).  Fuel bounds the cascade depth; one unit is consumed per
removal, and the wrapper passes more units than there are cells. -/
def removeCellFuel : Nat → ModelState → String → RemoveOptions → ModelState
  | 0, m, _, _ => m
  | fuel + 1, m, id, opts =>
    match collGet m.cells id with
    | none => m
    | some c =>
      let m := atomicRemove m c opts
      if opts.clear then m
      else if opts.disconnectEdges then disconnectEdgesOp m c
      else
        (getConnectedEdges m c {}).foldl
          (fun m e => removeCellFuel fuel m e.id opts) m

/-- `Model.removeCell(id, options)`. -/
def Model.removeCell (m : ModelState) (id : String) (opts : RemoveOptions) :
    ModelState :=
  removeCellFuel (m.cells.length + 1) m id opts

/-- Reading a named batch counter; `this.batches[name] || 0` — an absent
entry reads as `0`, any stored integer reads as itself (also `0`, for which
the JS `||` falls through to the same `0`). -/
def batchGet (l : List (String × Int)) (name : String) : Int :=
  match l.find? (fun p => p.1 = name) with
  | some p => p.2
  | none => 0

/-- Writing a named batch counter (`this.batches[name] = v`); keys stay
unique, and no claim observes the relative order of distinct batch names. -/
def batchSet (l : List (String × Int)) (name : String) (v : Int) :
    List (String × Int) :=
  l.filter (fun p => p.1 ≠ name) ++ [(name, v)]

/-- `Model.startBatch(name)`: increment the counter and emit
`batch:start`. -/
def startBatch (m : ModelState) (name : String) : ModelState :=
  pushEvent
    { m with batches := batchSet m.batches name (batchGet m.batches name + 1) }
    (.batchStart name)

/-- `Model.stopBatch(name)`: decrement the counter — with no floor at zero —
and emit `batch:stop`. -/
def stopBatch (m : ModelState) (name : String) : ModelState :=
  pushEvent
    { m with batches := batchSet m.batches name (batchGet m.batches name - 1) }
    (.batchStop name)

/-- `Model.hasActiveBatch(name)` for one name: the stored counter is strictly
positive (an absent counter compares as not positive, as `undefined > 0` is
false). -/
def hasActiveBatchName (m : ModelState) (name : String) : Bool :=
  match m.batches.find? (fun p => p.1 = name) with
  | some p => p.2 > 0
  | none => false

/-- The comparator `clear` passes to `Array.prototype.sort`: the source's
`(cell) => (cell.isEdge() ? 1 : 2)` takes one parameter, so the second
argument JS supplies is ignored and the returned value is positive for every
pair of cells. -/
def clearComparator (a : Cell) (_b : Cell) : Int :=
  if a.isEdge then 1 else 2

/-- One step of insertion sort under a JS comparator: scanning the already
sorted prefix from its right end, the new element moves left past every
element compared positive against it. -/
def jsInsertAux (cmp : Cell → Cell → Int) : List Cell → Cell → List Cell → List Cell
  | [], x, acc => x :: acc
  | h :: t, x, acc =>
    if cmp h x > 0 then jsInsertAux cmp t x (h :: acc)
    else (h :: t).reverse ++ x :: acc

/-- Insertion of one element into a sorted prefix (prefix passed in order,
scanned from the right). -/
def jsInsert (cmp : Cell → Cell → Int) (sorted : List Cell) (x : Cell) :
    List Cell :=
  jsInsertAux cmp sorted.reverse x []

/-- `Array.prototype.sort(comparefn)` as the insertion sort JS engines use on
small arrays (V8 sorts short arrays this way).  For a consistent comparator
this is an ordinary stable sort; the comparator `clear` supplies is not
consistent (it returns a positive number for every pair, ECMAScript leaves
the order implementation-defined), and under these insertion-sort semantics
such a comparator simply reverses the array. -/
def jsSort (cmp : Cell → Cell → Int) (l : List Cell) : List Cell :=
  l.foldl (jsInsert cmp) []

/-- `Model.clear(options)` (model.ts lines 143–167): inside a `clear` batch,
sort the current cells with `clearComparator` (intended, per the source's
comment, to put the edges first) and remove them one by one with
`clear: true` set on the options of every individual removal. -/
def clearOp (m : ModelState) : ModelState :=
  let raw := m.cells
  if raw.length = 0 then m
  else
    let m := startBatch m "clear"
    let sorted := jsSort clearComparator raw
    let m := sorted.foldl (fun m c => Model.removeCell m c.id { clear := true }) m
    stopBatch m "clear"

/-- Keeping the first cell of each id (the collection's no-two-cells-share-an-
id invariant applied to a bulk load). -/
def dedupById : List Cell → List String → List Cell
  | [], _ => []
  | c :: rest, seen =>
    if c.id ∈ seen then dedupById rest seen
    else c :: dedupById rest (c.id :: seen)

/-- `Model.resetCells(cells, options)`: prepare every cell against the
current model, replace the collection contents atomically (modelled from the
spec: the collection keeps ids unique and its z-index order), and rebuild
both caches from the new contents (`onReset`). -/
def resetCellsOp (m : ModelState) (cells : List Cell) (o : AddOptions) :
    ModelState :=
  let items := cells.map (fun c => prepareCell m c o)
  let deduped := dedupById items []
  let m := { m with cells := deduped.foldl insertSorted [], nodes := [], edges := [] }
  deduped.foldl onCellAddedCaches m

/-- `Model.getEdges()`: the cells the `edges` cache resolves to. -/
def modelGetEdges (m : ModelState) : List Cell :=
  m.edges.filterMap (collGet m.cells)

/-- The adjacency list `getShortestPath` derives: for every edge with both
terminal ids present, an arc source→target, plus the reverse arc unless
`directed`. -/
def buildAdjacency (m : ModelState) (directed : Bool) :
    List (String × List String) :=
  (modelGetEdges m).foldl
    (fun adj e =>
      match e.source, e.target with
      | some (.ref s), some (.ref t) =>
        if s ≠ "" ∧ t ≠ "" then
          let adj := if adj.any (fun p => p.1 = s) then adj else adj ++ [(s, [])]
          let adj := if adj.any (fun p => p.1 = t) then adj else adj ++ [(t, [])]
          let adj := adj.map (fun p => if p.1 = s then (p.1, p.2 ++ [t]) else p)
          if directed then adj
          else adj.map (fun p => if p.1 = t then (p.1, p.2 ++ [s]) else p)
        else adj
      | _, _ => adj)
    []

/-- Lookup in a string-keyed association list. -/
def alistGet {α : Type} (l : List (String × α)) (k : String) : Option α :=
  (l.find? (fun p => p.1 = k)).map (fun p => p.2)

/-- Setting a key in a string-keyed association list; keys stay unique and
only key-based lookups observe the result. -/
def alistSet {α : Type} (l : List (String × α)) (k : String) (v : α) :
    List (String × α) :=
  l.filter (fun p => p.1 ≠ k) ++ [(k, v)]

/-- The vertex Dijkstra visits next: the unvisited key of smallest tentative
distance (a key with no tentative distance is unreachable so far and is never
picked). -/
def dijkstraPick (keys : List String) (visited : List String)
    (dist : List (String × Nat)) : Option String :=
  keys.foldl
    (fun best k =>
      if k ∈ visited then best
      else
        match alistGet dist k with
        | none => best
        | some d =>
          match best with
          | none => some k
          | some b =>
            match alistGet dist b with
            | none => some k
            | some db => if d < db then some k else best)
    none

/-- Relaxation of all neighbours of the picked vertex under unit weights. -/
def dijkstraRelax (adj : List (String × List String))
    (u : String) (st : List (String × Nat) × List (String × String)) :
    List (String × Nat) × List (String × String) :=
  ((alistGet adj u).getD []).foldl
    (fun st v =>
      let du := (alistGet st.1 u).getD 0
      match alistGet st.1 v with
      | some dv =>
        if du + 1 < dv then (alistSet st.1 v (du + 1), alistSet st.2 v u) else st
      | none => (alistSet st.1 v (du + 1), alistSet st.2 v u))
    st

/-- The main Dijkstra loop, one visit per iteration, at most one iteration
per vertex. -/
def dijkstraLoop (adj : List (String × List String)) (keys : List String) :
    Nat → List String → List (String × Nat) × List (String × String) →
    List (String × String)
  | 0, _, st => st.2
  | n + 1, visited, st =>
    match dijkstraPick keys visited st.1 with
    | none => st.2
    | some u => dijkstraLoop adj keys n (visited ++ [u]) (dijkstraRelax adj u st)

/-- Modelled from the spec: `Dijkstra.run(adjacencyList, sourceId)` — a
single-source shortest-path relaxation from the source under the default unit
weight, returning the predecessor map of the vertices it reached.  The
optional per-edge weight function of the source is not modelled; no claim
exercises a non-unit weight. -/
def dijkstraRun (adj : List (String × List String)) (source : String) :
    List (String × String) :=
  dijkstraLoop adj (adj.map (fun p => p.1)) (adj.length) [] ([(source, 0)], [])

/-- The backward walk over predecessor links at the end of
`getShortestPath`; the JS `while ((targetId = previous[targetId]))` stops on
a missing predecessor and also on the falsy empty string. -/
def walkPrevious (prev : List (String × String)) :
    Nat → String → List String → List String
  | 0, _, path => path
  | n + 1, t, path =>
    match alistGet prev t with
    | none => path
    | some t' => if t' = "" then path else walkPrevious prev n t' (t' :: path)

/-- `Model.getShortestPath(source, target, options)` (model.ts lines
993–1030): derive the adjacency list, run Dijkstra, then reconstruct the
node-id path backwards from the target; unreachable targets yield `[]`. -/
def getShortestPath (m : ModelState) (sourceId targetId : String)
    (o : ShortestPathOptions) : List String :=
  let adj := buildAdjacency m o.directed
  let prev := dijkstraRun adj sourceId
  let path :=
    match alistGet prev targetId with
    | some v => if v = "" then [] else [targetId]
    | none => []
  walkPrevious prev (prev.length + 1) targetId path

/-- A fresh node with neither terminals nor an assigned z-index. -/
def mkNode (i : String) : Cell := .mk i false none none none false []

/-- A fresh node carrying an explicit z-index. -/
def mkNodeZ (i : String) (z : Int) : Cell := .mk i false none none (some z) false []

/-- A fresh edge with the given terminals. -/
def mkEdge (i : String) (s t : Terminal) : Cell :=
  .mk i true (some s) (some t) none false []

/-- A fresh edge carrying an explicit z-index. -/
def mkEdgeZ (i : String) (s t : Terminal) (z : Int) : Cell :=
  .mk i true (some s) (some t) (some z) false []

/-- A model built by adding the given cells one by one to a fresh model. -/
def addAll (cells : List Cell) : ModelState :=
  cells.foldl (fun m c => Model.addCell m c {}) emptyModel

/-- Nodes A, B and a disjoint node C, with one edge E from A to B — the
scenario of the subgraph-closure claim. -/
def subgraphModel : ModelState :=
  addAll [mkNode "A", mkNode "B", mkNode "C", mkEdge "E" (.ref "A") (.ref "B")]

/-- The live cell A of `subgraphModel`. -/
def subA : Cell := (collGet subgraphModel.cells "A").getD (mkNode "?")

/-- The live edge E of `subgraphModel`. -/
def subE : Cell := (collGet subgraphModel.cells "E").getD (mkNode "?")

/-- Nodes X, Y, Z with an edge E2 from X to Y and an edge E1 whose source
terminal references the edge E2 and whose target is Z — an edge-to-edge
attachment exercising pass 2 of `getSubGraph` on an edge endpoint. -/
def chainModel : ModelState :=
  addAll [mkNode "X", mkNode "Y", mkNode "Z",
    mkEdge "E2" (.ref "X") (.ref "Y"), mkEdge "E1" (.ref "E2") (.ref "Z")]

/-- The live edge E1 of `chainModel`. -/
def chainE1 : Cell := (collGet chainModel.cells "E1").getD (mkNode "?")

/-- One node carrying one self-loop edge, the edge holding the smaller
z-index so that the collection order puts the edge first. -/
def clearModel : ModelState :=
  addAll [mkNodeZ "n" 2, mkEdgeZ "e" (.ref "n") (.ref "n") 1]

/-- Nodes A, B; a self-loop edge T on B; and two edges E and F from A whose
target terminals both reference the edge T — two distinct indirect paths
reaching the same edge. -/
def dupModel : ModelState :=
  addAll [mkNode "A", mkNode "B", mkEdge "T" (.ref "B") (.ref "B"),
    mkEdge "E" (.ref "A") (.ref "T"), mkEdge "F" (.ref "A") (.ref "T")]

/-- The live cell A of `dupModel`. -/
def dupA : Cell := (collGet dupModel.cells "A").getD (mkNode "?")

/-- A node N with an edge E from N to the edge X, where the edges X and Y
reference each other through their target terminals — a finite model with a
cycle of edge-to-edge terminal attachments. -/
def loopModel : ModelState :=
  addAll [mkNode "N", mkEdge "E" (.ref "N") (.ref "X"),
    mkEdge "X" (.pt 0 0) (.ref "Y"), mkEdge "Y" (.pt 0 0) (.ref "X")]

/-- The live cell N of `loopModel`. -/
def loopN : Cell := (collGet loopModel.cells "N").getD (mkNode "?")

/-- The live edge E of `loopModel`, as prepared by insertion. -/
def loopE : Cell := .mk "E" true (some (.ref "N")) (some (.ref "X")) (some 2) true []

/-- The live edge X of `loopModel`, as prepared by insertion. -/
def loopX : Cell := .mk "X" true (some (.pt 0 0)) (some (.ref "Y")) (some 3) true []

/-- The live edge Y of `loopModel`, as prepared by insertion. -/
def loopY : Cell := .mk "Y" true (some (.pt 0 0)) (some (.ref "X")) (some 4) true []

/-- The options `{ outgoing: true, indirect: true }`. -/
def indirectOutgoing : ConnectedEdgesOptions :=
  { outgoing := some true, indirect := true }

/-- Nodes A, B and the edge E from A to B — the removal-cleanup scenario. -/
def removalModel : ModelState :=
  addAll [mkNode "A", mkNode "B", mkEdge "E" (.ref "A") (.ref "B")]

/-- The 4-node unit-weight path A→B→C→D plus a disconnected node E. -/
def pathModel : ModelState :=
  addAll [mkNode "A", mkNode "B", mkNode "C", mkNode "D", mkNode "E",
    mkEdge "ab" (.ref "A") (.ref "B"), mkEdge "bc" (.ref "B") (.ref "C"),
    mkEdge "cd" (.ref "C") (.ref "D")]

/-- The model invariant tying the membership caches to the collection: the
collection's ids are unique, the `nodes` cache holds exactly the ids of the
non-edge cells and the `edges` cache exactly the ids of the edge cells. -/
def cachesConsistent (m : ModelState) : Prop :=
  (cellIds m.cells).Nodup ∧
  (∀ i, i ∈ m.nodes ↔ ∃ c ∈ m.cells, c.id = i ∧ c.isEdge = false) ∧
  (∀ i, i ∈ m.edges ↔ ∃ c ∈ m.cells, c.id = i ∧ c.isEdge = true)

/-- Model states reachable from a fresh model through the public mutation
operations of the claim: `addCell`, `removeCell`, `resetCells` and
`clear`. -/
inductive Reachable : ModelState → Prop where
  | init : Reachable emptyModel
  | addCell (m : ModelState) (c : Cell) (o : AddOptions) :
      Reachable m → Reachable (Model.addCell m c o)
  | removeCell (m : ModelState) (id : String) (opts : RemoveOptions) :
      Reachable m → Reachable (Model.removeCell m id opts)
  | resetCells (m : ModelState) (cells : List Cell) (o : AddOptions) :
      Reachable m → Reachable (resetCellsOp m cells o)
  | clear (m : ModelState) : Reachable m → Reachable (clearOp m)

/-- Reading a batch counter just written yields the written value. -/
lemma batchGet_batchSet (l : List (String × Int)) (name : String) (v : Int) :
    batchGet (batchSet l name v) name = v := by
  unfold batchGet batchSet
  induction l with
  | nil => simp
  | cons p rest ih =>
    by_cases hp : p.1 = name
    · simpa [hp] using ih
    · simpa [hp, List.find?] using ih

/-- `hasActiveBatch` for one name agrees with the positivity of the read
counter. -/
lemma hasActiveBatchName_eq (m : ModelState) (name : String) :
    hasActiveBatchName m name = decide (batchGet m.batches name > 0) := by
  unfold hasActiveBatchName batchGet
  cases m.batches.find? (fun p => p.1 = name) <;> simp

/-- C10: on a batch whose counter is zero, `stopBatch` still emits a
`batch:stop` event and drives the counter to `-1`; the following
`startBatch` only brings it back to `0`, so `hasActiveBatch` then reports
`false` although a batch was just started. -/
theorem c10_stopBatch_floor (m : ModelState) (name : String)
    (h : batchGet m.batches name = 0) :
    (stopBatch m name).events = m.events ++ [.batchStop name] ∧
    batchGet (stopBatch m name).batches name = -1 ∧
    batchGet (startBatch (stopBatch m name) name).batches name = 0 ∧
    hasActiveBatchName (startBatch (stopBatch m name) name) name = false := by
  refine ⟨rfl, ?_, ?_, ?_⟩
  · simp [stopBatch, pushEvent, h, batchGet_batchSet]
  · simp [startBatch, stopBatch, pushEvent, h, batchGet_batchSet]
  · simp [hasActiveBatchName_eq, startBatch, stopBatch, pushEvent, h,
      batchGet_batchSet]

/-- Witness for C10 on a fresh model and the batch name `b`. -/
theorem c10_witness :
    batchGet emptyModel.batches "b" = 0 ∧
    ((stopBatch emptyModel "b").events = emptyModel.events ++ [.batchStop "b"] ∧
     batchGet (stopBatch emptyModel "b").batches "b" = -1 ∧
     batchGet (startBatch (stopBatch emptyModel "b") "b").batches "b" = 0 ∧
     hasActiveBatchName (startBatch (stopBatch emptyModel "b") "b") "b" = false) :=
  ⟨by decide, c10_stopBatch_floor emptyModel "b" (by decide)⟩

/-- C9: `removeCell` on an id not present in the model is a no-op — no
error is raised (the operation is total) and the model state, collection and
caches included, is returned unchanged. -/
theorem c9_removeCell_noop (m : ModelState) (id : String) (opts : RemoveOptions)
    (h : collGet m.cells id = none) : Model.removeCell m id opts = m := by
  unfold Model.removeCell
  rw [removeCellFuel]
  simp [h]

/-- Witness for C9: removing the unknown id `ghost` from the empty model. -/
theorem c9_witness :
    collGet emptyModel.cells "ghost" = none ∧
    Model.removeCell emptyModel "ghost" {} = emptyModel :=
  ⟨rfl, c9_removeCell_noop emptyModel "ghost" {} rfl⟩

/-- C6: on the unit-weight path A→B→C→D, `getShortestPath(A, D)` returns
`[A, B, C, D]`, and for the disconnected node E, `getShortestPath(A, E)`
returns the empty list. -/
theorem c6_shortest_path :
    getShortestPath pathModel "A" "D" {} = ["A", "B", "C", "D"] ∧
    getShortestPath pathModel "A" "E" {} = [] :=
  ⟨by decide, by decide⟩

/-- The comparator `clear` passes to the sort returns a positive value on
every pair of cells: it never orders any cell before any other, so it cannot
move the edges to the front of the removal order. -/
lemma clearComparator_pos (a b : Cell) : 0 < clearComparator a b := by
  unfold clearComparator
  split <;> omega

/-- C2 (failing evaluation): on a model whose z-index order puts the
self-loop edge `e` before its node `n`, `clear()` removes the node first —
the always-positive single-argument comparator reverses the collection
instead of moving edges to the front — although every individual removal
does carry `clear: true`. -/
theorem c2_clear_trace :
    (clearOp clearModel).events =
      [.cellAdded "n", .cellAdded "e", .batchStart "clear",
       .cellRemoved "n" true, .cellRemoved "e" true, .batchStop "clear"] := by
  decide

/-- C3 (failing evaluation): with `indirect`, the edge `T` reached through
the edge-to-edge terminals of both `E` and `F` is pushed twice — the result
is `[E, T, F, T]`, so the same edge id occurs twice. -/
theorem c3_duplicate_edge :
    (getConnectedEdgesFuel 10 dupModel dupA indirectOutgoing).map cellIds =
      some ["E", "T", "F", "T"] ∧
    (getConnectedEdgesFuel 10 dupModel dupA indirectOutgoing).map
        (fun l => (cellIds l).count "T") = some 2 :=
  ⟨by decide, by decide⟩

/-- C5 (amended): `removeCell(A)` with default options also removes the edge
E; `removeCell(A, { disconnectEdges: true })` leaves E in the model with its
source terminal still referencing the already-removed A — the `(0,0)`
substitution never fires because A is gone from the collection when
`disconnectEdges` resolves terminal cells — so `E.getSourceCell()` returns
null while E's target terminal still references B. -/
theorem c5_removal_cleanup :
    cellIds (Model.removeCell removalModel "A" {}).cells = ["B"] ∧
    cellIds (Model.removeCell removalModel "A" { disconnectEdges := true }).cells
      = ["B", "E"] ∧
    (collGet (Model.removeCell removalModel "A"
        { disconnectEdges := true }).cells "E").map Cell.source
      = some (some (.ref "A")) ∧
    ((collGet (Model.removeCell removalModel "A"
        { disconnectEdges := true }).cells "E").bind
        (getSourceCell (Model.removeCell removalModel "A"
          { disconnectEdges := true }))).isNone = true ∧
    ((collGet (Model.removeCell removalModel "A"
        { disconnectEdges := true }).cells "E").bind
        (getTargetCell (Model.removeCell removalModel "A"
          { disconnectEdges := true }))).map Cell.id = some "B" :=
  ⟨by decide, by decide, by decide, by decide, by decide⟩

/-- C5 (counterexample): after `removeCell(A, { disconnectEdges: true })` the
source terminal of E is not the fixed point `(0,0)` — it still references
A. -/
theorem c5_counterexample :
    ¬ ((collGet (Model.removeCell removalModel "A"
          { disconnectEdges := true }).cells "E").map Cell.source
        = some (some (.pt 0 0))) := by
  decide

/-- The effective direction flags of `{ outgoing: true, indirect: true }`. -/
lemma resolvedOutgoing_io : resolvedOutgoing indirectOutgoing = true := by rfl

/-- With `incoming` unset and `outgoing` set, `incoming` stays falsy. -/
lemma resolvedIncoming_io : resolvedIncoming indirectOutgoing = false := by rfl

/-- The edge X of `loopModel` has no outgoing edges. -/
lemma out_X : getOutgoingEdges loopModel "X" = [] := by rfl

/-- The edge Y of `loopModel` has no outgoing edges. -/
lemma out_Y : getOutgoingEdges loopModel "Y" = [] := by rfl

/-- The edge E of `loopModel` has no outgoing edges. -/
lemma out_E : getOutgoingEdges loopModel "E" = [] := by rfl

/-- The node N of `loopModel` has the single outgoing edge E. -/
lemma out_N : getOutgoingEdges loopModel "N" = [loopE] := by rfl

/-- The target terminal of X resolves to the edge Y. -/
lemma tgt_X : getTargetCell loopModel loopX = some loopY := by rfl

/-- The target terminal of Y resolves back to the edge X. -/
lemma tgt_Y : getTargetCell loopModel loopY = some loopX := by rfl

/-- The target terminal of E resolves to the edge X. -/
lemma tgt_E : getTargetCell loopModel loopE = some loopX := by rfl

/-- From any state whose cache holds neither X nor Y, `collect` on X or Y
runs out of any amount of fuel: the mutual terminal recursion X → Y → X never
writes either id into the cache, so the loop guard never fires. -/
lemma collect_loop : ∀ fuel (st : CollectState), "X" ∉ st.cache → "Y" ∉ st.cache →
    collect loopModel indirectOutgoing fuel st loopX true = none ∧
    collect loopModel indirectOutgoing fuel st loopY true = none := by
  intro fuel
  induction fuel with
  | zero => intro st hX hY; exact ⟨rfl, rfl⟩
  | succ n ih =>
    intro st hX hY
    constructor
    · rw [collect]
      simp [out_X, tgt_X, resolvedIncoming_io, resolvedOutgoing_io, hY,
        show loopX.id = "X" from rfl, show loopX.isEdge = true from rfl,
        show loopY.id = "Y" from rfl, show loopY.isEdge = true from rfl]
      exact (ih ⟨st.result ++ [loopY], st.cache⟩ hX hY).2
    · rw [collect]
      simp [out_Y, tgt_Y, resolvedIncoming_io, resolvedOutgoing_io, hX,
        show loopY.id = "Y" from rfl, show loopY.isEdge = true from rfl,
        show loopX.id = "X" from rfl, show loopX.isEdge = true from rfl]
      exact (ih ⟨st.result ++ [loopX], st.cache⟩ hX hY).1

/-- `collect` on the edge E enters the X/Y terminal loop and exhausts any
fuel. -/
lemma collect_E : ∀ fuel (st : CollectState), "X" ∉ st.cache → "Y" ∉ st.cache →
    collect loopModel indirectOutgoing fuel st loopE true = none := by
  intro fuel st hX hY
  match fuel with
  | 0 => rfl
  | n + 1 =>
    rw [collect]
    simp [out_E, tgt_E, resolvedIncoming_io, resolvedOutgoing_io, hX,
      show loopE.id = "E" from rfl, show loopE.isEdge = true from rfl,
      show loopX.id = "X" from rfl, show loopX.isEdge = true from rfl]
    exact (collect_loop n ⟨st.result ++ [loopX], st.cache⟩ hX hY).1

/-- `collect` on the start node N recurses into E and exhausts any fuel. -/
lemma collect_N : ∀ fuel (st : CollectState),
    "E" ∉ st.cache → "X" ∉ st.cache → "Y" ∉ st.cache →
    collect loopModel indirectOutgoing fuel st loopN true = none := by
  intro fuel st hE hX hY
  match fuel with
  | 0 => rfl
  | n + 1 =>
    rw [collect]
    have hX2 : "X" ∉ st.cache ++ ["E"] := by simp [hX]
    have hY2 : "Y" ∉ st.cache ++ ["E"] := by simp [hY]
    simp [out_N, resolvedIncoming_io, resolvedOutgoing_io, hE,
      show indirectOutgoing.indirect = true from rfl,
      show loopN.id = "N" from rfl, show loopN.isEdge = false from rfl,
      show loopE.id = "E" from rfl,
      collect_E n ⟨st.result ++ [loopE], st.cache ++ ["E"]⟩ hX2 hY2]

/-- C4: `getConnectedEdges(N, { outgoing: true, indirect: true })` on the
finite `loopModel` — whose edges X and Y reference each other through their
terminals — does not terminate: for every amount of fuel the recursive
collection runs out, because the edge-terminal branch pushes X and Y without
recording them in the visited cache. -/
theorem c4_nontermination : ∀ fuel,
    getConnectedEdgesFuel fuel loopModel loopN indirectOutgoing = none := by
  intro fuel
  unfold getConnectedEdgesFuel
  simp [resolvedIncoming_io, resolvedOutgoing_io,
    collect_N fuel ⟨[], []⟩ (by simp) (by simp) (by simp)]

/-- Replacing the ownership flag preserves the id. -/
lemma setOwned_id (c : Cell) (b : Bool) : (c.setOwned b).id = c.id := by
  cases c; rfl

/-- Replacing the z-index preserves the id. -/
lemma setZIndex_id (c : Cell) (z : Option Int) : (c.setZIndex z).id = c.id := by
  cases c; rfl

/-- The z-index assignment step preserves the id. -/
lemma prepareZIndex_id (m : ModelState) (c : Cell) :
    (prepareZIndex m c).id = c.id := by
  unfold prepareZIndex
  split <;> simp [setZIndex_id]

/-- `prepareCell` preserves the id. -/
lemma prepareCell_id (m : ModelState) (c : Cell) (o : AddOptions) :
    (prepareCell m c o).id = c.id := by
  unfold prepareCell
  rw [prepareZIndex_id]
  split <;> simp [setOwned_id]

/-- `Collection.has` agrees with membership in the id list. -/
lemma collHas_iff (l : List Cell) (i : String) :
    collHas l i = true ↔ i ∈ cellIds l := by
  simp [collHas, cellIds, List.any_eq_true, List.mem_map]

/-- The ids after a sorted insertion are the old ids plus the new one. -/
lemma mem_cellIds_insertSorted (l : List Cell) (c : Cell) (i : String) :
    i ∈ cellIds (insertSorted l c) ↔ i = c.id ∨ i ∈ cellIds l := by
  induction l with
  | nil => simp [insertSorted, cellIds]
  | cons x xs ih =>
    rw [insertSorted]
    split
    · have h2 := ih
      simp only [cellIds, List.map_cons, List.mem_cons] at h2 ⊢
      rw [h2]
      tauto
    · simp only [cellIds, List.map_cons, List.mem_cons]

/-- The cells after `Collection.add`: unchanged on a duplicate id, otherwise
the sorted insertion. -/
lemma collectionAdd_cells (m : ModelState) (c : Cell) :
    (collectionAdd m c).cells =
      if collHas m.cells c.id then m.cells else insertSorted m.cells c := by
  unfold collectionAdd onCellAddedCaches pushEvent
  split
  · rfl
  · split <;> rfl

/-- After `Collection.add` the added id is present. -/
lemma collHas_collectionAdd (m : ModelState) (c : Cell) :
    collHas (collectionAdd m c).cells c.id = true := by
  rw [collHas_iff, collectionAdd_cells]
  split
  · rw [← collHas_iff]; assumption
  · rw [mem_cellIds_insertSorted]; left; rfl

/-- Recursive insertion never removes a cell: any id present before
`addCell` is present afterwards. -/
lemma collHas_mono_addCellAux (o : AddOptions) :
    ∀ fuel (c : Cell) (m : ModelState) (addings : List String) (i : String),
      collHas m.cells i = true →
      collHas (addCellAux o fuel m addings c).cells i = true := by
  intro fuel
  induction fuel with
  | zero => intro c m addings i h; exact h
  | succ n ih =>
    intro c m addings i h
    rw [addCellAux]
    split
    · have h1 : collHas (collectionAdd m (prepareCell m c o)).cells i = true := by
        rw [collHas_iff, collectionAdd_cells]
        split
        · rw [← collHas_iff]; exact h
        · rw [mem_cellIds_insertSorted]; right; rw [← collHas_iff]; exact h
      have aux : ∀ (l : List Cell) (m1 : ModelState),
          collHas m1.cells i = true →
          collHas (l.foldl (fun m2 ch => addCellAux o n m2 (c.id :: addings) ch) m1).cells i
            = true := by
        intro l
        induction l with
        | nil => intro m1 h1; exact h1
        | cons ch rest ihl => intro m1 h1; exact ihl _ (ih ch m1 (c.id :: addings) i h1)
      exact aux c.children _ h1
    · exact h

/-- C8: `addCell` is idempotent — adding the same cell twice in succession
leaves the model state (collection, caches, batches and event trace) exactly
as after adding it once, because the second call finds the id present and is
a no-op. -/
theorem c8_addCell_idempotent (m : ModelState) (c : Cell) (o : AddOptions) :
    Model.addCell (Model.addCell m c o) c o = Model.addCell m c o := by
  have hhas : collHas (addCellAux o (c.descendantsOf.length + 1) m [] c).cells c.id
      = true := by
    rw [addCellAux]
    by_cases hc : collHas m.cells c.id = true
    · simp [hc]
    · have hguard : (¬collHas m.cells c.id = true ∧ c.id ∉ ([] : List String)) := by
        simp [hc]
      rw [if_pos hguard]
      have h1 : collHas (collectionAdd m (prepareCell m c o)).cells c.id = true := by
        have h2 := collHas_collectionAdd m (prepareCell m c o)
        rwa [prepareCell_id] at h2
      have aux : ∀ (l : List Cell) (m1 : ModelState),
          collHas m1.cells c.id = true →
          collHas (l.foldl
            (fun m2 ch => addCellAux o c.descendantsOf.length m2 (c.id :: []) ch) m1).cells
            c.id = true := by
        intro l
        induction l with
        | nil => intro m1 h1; exact h1
        | cons ch rest ihl =>
          intro m1 h1
          exact ihl _ (collHas_mono_addCellAux o _ ch m1 _ c.id h1)
      exact aux c.children _ h1
  show addCellAux o (c.descendantsOf.length + 1)
      (addCellAux o (c.descendantsOf.length + 1) m [] c) [] c
    = addCellAux o (c.descendantsOf.length + 1) m [] c
  conv_lhs => rw [addCellAux]
  simp [hhas]

/-- Invariant preservation along a left fold. -/
lemma foldl_inv {α β : Type} (P : α → Prop) (f : α → β → α)
    (hf : ∀ a b, P a → P (f a b)) :
    ∀ (l : List β) (a : α), P a → P (l.foldl f a) := by
  intro l
  induction l with
  | nil => intro a h; exact h
  | cons b rest ih => intro a h; exact ih _ (hf a b h)

/-- The pass-1 collector keeps the cache equal to the collected ids. -/
lemma subCollect_wf (st : SubState) (c : Cell) (h : subStateWF st) :
    subStateWF (subCollect st c) := by
  unfold subCollect
  split
  · exact h
  · unfold subStateWF at h ⊢
    simp [cellIds, h]

/-- The pass-2 endpoint insertion keeps the cache equal to the collected
ids. -/
lemma subAddEndpoint_wf (st : SubState) (oc : Option Cell) (h : subStateWF st) :
    subStateWF (subAddEndpoint st oc) := by
  cases oc with
  | none => exact h
  | some c =>
    simp only [subAddEndpoint]
    split
    · exact h
    · unfold subStateWF at h ⊢
      simp [cellIds, h]

/-- The pass-3 edge insertion keeps the cache equal to the collected ids. -/
lemma subPass3Edge_wf (m : ModelState) (st : SubState) (e : Cell)
    (h : subStateWF st) : subStateWF (subPass3Edge m st e) := by
  unfold subPass3Edge
  split
  · split
    · unfold subStateWF at h ⊢
      simp [cellIds, h]
    · exact h
  · exact h

/-- Pass 1 produces a well-formed accumulator. -/
lemma subPass1_wf (cells : List Cell) (o : SubgraphOptions) :
    subStateWF (subPass1 cells o) := by
  unfold subPass1
  refine foldl_inv subStateWF _ ?_ cells _ ?_
  · intro st c h
    have h1 := subCollect_wf st c h
    split
    · exact foldl_inv subStateWF _ (fun a b => subCollect_wf a b) _ _ h1
    · exact h1
  · rfl

/-- Pass 2 preserves well-formedness. -/
lemma subPass2_wf (m : ModelState) (st : SubState) (h : subStateWF st) :
    subStateWF (subPass2 m st) := by
  unfold subPass2
  refine foldl_inv subStateWF _ ?_ st.edges st h
  intro a b hh
  exact subAddEndpoint_wf _ _ (subAddEndpoint_wf _ _ hh)

/-- Pass 3 preserves well-formedness. -/
lemma subPass3_wf (m : ModelState) (o : SubgraphOptions) (st : SubState)
    (h : subStateWF st) : subStateWF (subPass3 m o st) := by
  unfold subPass3
  refine foldl_inv subStateWF _ ?_ st.nodes st h
  intro a b hh
  exact foldl_inv subStateWF _ (fun a2 b2 => subPass3Edge_wf m a2 b2) _ _ hh

/-- The final cache of `getSubGraph` is exactly the result's id list. -/
lemma getSubGraph_cache (m : ModelState) (cells : List Cell) (o : SubgraphOptions) :
    (subPass3 m o (subPass2 m (subPass1 cells o))).cache = cellIds (getSubGraph m cells o) :=
  subPass3_wf m o _ (subPass2_wf m _ (subPass1_wf cells o))

/-- The pass-1 collector only grows the cache. -/
lemma subCollect_cache_mono (st : SubState) (c : Cell) (i : String)
    (h : i ∈ st.cache) : i ∈ (subCollect st c).cache := by
  unfold subCollect
  split
  · exact h
  · simp [h]

/-- The endpoint insertion only grows the cache. -/
lemma subAddEndpoint_cache_mono (st : SubState) (oc : Option Cell) (i : String)
    (h : i ∈ st.cache) : i ∈ (subAddEndpoint st oc).cache := by
  cases oc with
  | none => exact h
  | some c =>
    simp only [subAddEndpoint]
    split
    · exact h
    · simp [h]

/-- The pass-3 edge insertion only grows the cache. -/
lemma subPass3Edge_cache_mono (m : ModelState) (st : SubState) (e : Cell)
    (i : String) (h : i ∈ st.cache) : i ∈ (subPass3Edge m st e).cache := by
  unfold subPass3Edge
  split
  · split
    · simp [h]
    · exact h
  · exact h

/-- Folding pass-2 steps only grows the cache. -/
lemma subPass2_cache_mono (m : ModelState) (l : List Cell) (st : SubState)
    (i : String) (h : i ∈ st.cache) : i ∈ (l.foldl (subPass2Step m) st).cache := by
  refine foldl_inv (fun st2 => i ∈ st2.cache) (subPass2Step m) ?_ l st h
  intro a b hh
  exact subAddEndpoint_cache_mono _ _ _ (subAddEndpoint_cache_mono _ _ _ hh)

/-- Pass 3 only grows the cache. -/
lemma subPass3_cache_mono (m : ModelState) (o : SubgraphOptions) (st : SubState)
    (i : String) (h : i ∈ st.cache) : i ∈ (subPass3 m o st).cache := by
  unfold subPass3
  refine foldl_inv (fun st2 => i ∈ st2.cache) _ ?_ st.nodes st h
  intro a b hh
  exact foldl_inv (fun st2 => i ∈ st2.cache) _
    (fun a2 b2 => subPass3Edge_cache_mono m a2 b2 i) _ _ hh

/-- Inserting a resolved endpoint puts its id into the cache. -/
lemma mem_cache_subAddEndpoint_self (st : SubState) (c : Cell) :
    c.id ∈ (subAddEndpoint st (some c)).cache := by
  simp only [subAddEndpoint]
  split
  · assumption
  · simp

/-- One pass-2 step caches both resolved endpoint ids of its edge. -/
lemma subPass2Step_endpoints (m : ModelState) (st : SubState) (e : Cell) :
    ∀ i ∈ edgeEndpointIds m e, i ∈ (subPass2Step m st e).cache := by
  intro i hi
  unfold edgeEndpointIds at hi
  rcases List.mem_append.mp hi with hs | ht
  · cases hsc : getSourceCell m e with
    | none => rw [hsc] at hs; cases hs
    | some s =>
      rw [hsc] at hs
      simp at hs
      subst hs
      unfold subPass2Step
      rw [hsc]
      exact subAddEndpoint_cache_mono _ _ _ (mem_cache_subAddEndpoint_self st s)
  · cases htc : getTargetCell m e with
    | none => rw [htc] at ht; cases ht
    | some t =>
      rw [htc] at ht
      simp at ht
      subst ht
      unfold subPass2Step
      rw [htc]
      exact mem_cache_subAddEndpoint_self _ t

/-- After folding pass 2 over a list of edges, every member edge has its
resolved endpoint ids in the cache. -/
lemma subPass2_endpoints (m : ModelState) :
    ∀ (l : List Cell) (st : SubState) (e : Cell), e ∈ l →
      ∀ i ∈ edgeEndpointIds m e, i ∈ (l.foldl (subPass2Step m) st).cache := by
  intro l
  induction l with
  | nil => intro st e he; cases he
  | cons x rest ih =>
    intro st e he i hi
    simp only [List.foldl_cons]
    rcases List.mem_cons.mp he with rfl | he2
    · exact subPass2_cache_mono m rest _ i (subPass2Step_endpoints m st e i hi)
    · exact ih _ e he2 i hi

/-- The pass-1 collector keeps every collected edge in the `edges` array. -/
lemma subCollect_edges_inv (st : SubState) (c : Cell)
    (h : ∀ e ∈ st.subgraph, e.isEdge = true → e ∈ st.edges) :
    ∀ e ∈ (subCollect st c).subgraph, e.isEdge = true → e ∈ (subCollect st c).edges := by
  by_cases hc : c.id ∈ st.cache
  · simp only [subCollect, if_pos hc]
    exact h
  · simp only [subCollect, if_neg hc]
    intro e he hedge
    simp only [List.mem_append, List.mem_singleton] at he
    rcases he with h1 | h1
    · have h2 := h e h1 hedge
      split <;> simp [h2]
    · subst h1
      simp [hedge]

/-- After pass 1, every edge in the subgraph is in the `edges` array. -/
lemma subPass1_edgesComplete (cells : List Cell) (o : SubgraphOptions) :
    ∀ e ∈ (subPass1 cells o).subgraph, e.isEdge = true →
      e ∈ (subPass1 cells o).edges := by
  unfold subPass1
  refine foldl_inv (fun st : SubState => ∀ e ∈ st.subgraph, e.isEdge = true → e ∈ st.edges)
    _ ?_ cells _ ?_
  · intro st c h
    have h1 := subCollect_edges_inv st c h
    split
    · exact foldl_inv (fun st : SubState => ∀ e ∈ st.subgraph, e.isEdge = true → e ∈ st.edges)
        _ (fun a b => subCollect_edges_inv a b) _ _ h1
    · exact h1
  · intro e he; cases he

/-- A cell in the subgraph after an endpoint insertion was already there or
is the inserted endpoint. -/
lemma mem_subgraph_subAddEndpoint (st : SubState) (oc : Option Cell) (x : Cell)
    (hx : x ∈ (subAddEndpoint st oc).subgraph) : x ∈ st.subgraph ∨ oc = some x := by
  cases oc with
  | none => exact Or.inl hx
  | some c =>
    simp only [subAddEndpoint] at hx
    split at hx
    · exact Or.inl hx
    · simp only [List.mem_append, List.mem_singleton] at hx
      rcases hx with h1 | h1
      · exact Or.inl h1
      · subst h1; exact Or.inr rfl

/-- When every folded edge has node-only terminals, pass 2 adds no edge to
the subgraph: any property of the edges already collected persists. -/
lemma subPass2_no_new_edges (m : ModelState) (P : Cell → Prop) :
    ∀ (l : List Cell), (∀ e ∈ l, terminalsAreNodes m e = true) →
    ∀ st : SubState, (∀ e ∈ st.subgraph, e.isEdge = true → P e) →
    ∀ e ∈ (l.foldl (subPass2Step m) st).subgraph, e.isEdge = true → P e := by
  intro l
  induction l with
  | nil => intro _ st h; exact h
  | cons x rest ih =>
    intro hl st h
    simp only [List.foldl_cons]
    apply ih (fun e he => hl e (List.mem_cons_of_mem _ he))
    intro e he hedge
    unfold subPass2Step at he
    rcases mem_subgraph_subAddEndpoint _ _ _ he with h1 | h1
    · rcases mem_subgraph_subAddEndpoint _ _ _ h1 with h2 | h2
      · exact h e h2 hedge
      · exfalso
        have hx := hl x (List.mem_cons_self x rest)
        unfold terminalsAreNodes at hx
        rw [h2] at hx
        simp [Cell.isNode, hedge] at hx
    · exfalso
      have hx := hl x (List.mem_cons_self x rest)
      unfold terminalsAreNodes at hx
      rw [h1] at hx
      simp [Cell.isNode, hedge] at hx

/-- The pass-3 edge insertion preserves endpoint closure: it only adds an
edge whose endpoint ids are already cached. -/
lemma edgesClosed_pass3Edge (m : ModelState) (st : SubState) (e2 : Cell)
    (h : edgesClosed m st) : edgesClosed m (subPass3Edge m st e2) := by
  unfold subPass3Edge
  cases hs : getSourceCell m e2 with
  | none => exact h
  | some s =>
    cases ht : getTargetCell m e2 with
    | none => exact h
    | some t =>
      change edgesClosed m
        (if e2.id ∉ st.cache ∧ s.id ∈ st.cache ∧ t.id ∈ st.cache then
          { st with subgraph := st.subgraph ++ [e2], cache := st.cache ++ [e2.id] }
        else st)
      by_cases hguard : e2.id ∉ st.cache ∧ s.id ∈ st.cache ∧ t.id ∈ st.cache
      · rw [if_pos hguard]
        unfold edgesClosed at h ⊢
        intro e he hedge i hi
        simp only [List.mem_append, List.mem_singleton] at he ⊢
        rcases he with h1 | h1
        · exact Or.inl (h e h1 hedge i hi)
        · subst h1
          unfold edgeEndpointIds at hi
          rw [hs, ht] at hi
          simp at hi
          rcases hi with rfl | rfl
          · exact Or.inl hguard.2.1
          · exact Or.inl hguard.2.2
      · rw [if_neg hguard]
        exact h

/-- C1 (amended): on the concrete scenario, `getSubGraph([A])` returns just
`[A]` while `getSubGraph([E])` returns `[E, A, B]` — the edge pulls in its
endpoints, C stays out; in general every edge of the expanded input set has
its resolved endpoint ids in the result, and provided every terminal of an
expanded-input edge resolves to a node, no edge in the result references a
cell outside the result. -/
theorem c1_subgraph_closure :
    (cellIds (getSubGraph subgraphModel [subA] {}) = ["A"] ∧
     cellIds (getSubGraph subgraphModel [subE] {}) = ["E", "A", "B"]) ∧
    (∀ (m : ModelState) (cells : List Cell) (o : SubgraphOptions)
       (e : Cell), e ∈ expandedEdges cells o →
       ∀ i ∈ edgeEndpointIds m e, i ∈ cellIds (getSubGraph m cells o)) ∧
    (∀ (m : ModelState) (cells : List Cell) (o : SubgraphOptions),
       (∀ e ∈ expandedEdges cells o, terminalsAreNodes m e = true) →
       ∀ e ∈ getSubGraph m cells o, e.isEdge = true →
         ∀ i ∈ edgeEndpointIds m e, i ∈ cellIds (getSubGraph m cells o)) := by
  refine ⟨⟨by decide, by decide⟩, ?_, ?_⟩
  · intro m cells o e he i hi
    rw [← getSubGraph_cache]
    apply subPass3_cache_mono
    unfold subPass2
    exact subPass2_endpoints m _ _ e he i hi
  · intro m cells o H e he hedge i hi
    have hQ2 : ∀ e ∈ (subPass2 m (subPass1 cells o)).subgraph, e.isEdge = true →
        e ∈ (subPass1 cells o).edges := by
      unfold subPass2
      exact subPass2_no_new_edges m _ _ H _ (subPass1_edgesComplete cells o)
    have hcl2 : edgesClosed m (subPass2 m (subPass1 cells o)) := by
      intro e2 he2 hedge2 i2 hi2
      have he0 : e2 ∈ (subPass1 cells o).edges := hQ2 e2 he2 hedge2
      unfold subPass2
      exact subPass2_endpoints m _ _ e2 he0 i2 hi2
    have hcl3 : edgesClosed m (subPass3 m o (subPass2 m (subPass1 cells o))) := by
      unfold subPass3
      refine foldl_inv (edgesClosed m) _ ?_ _ _ hcl2
      intro a b hh
      exact foldl_inv (edgesClosed m) _ (fun a2 b2 => edgesClosed_pass3Edge m a2 b2) _ _ hh
    have hfin := hcl3 e he hedge i hi
    rwa [getSubGraph_cache] at hfin

/-- Witness for C1: the hypothesis and the closure conclusion hold on the
concrete model, taking the edge E as the input set. -/
theorem c1_witness :
    (∀ e ∈ expandedEdges [subE] ({} : SubgraphOptions),
        terminalsAreNodes subgraphModel e = true) ∧
    (∀ e ∈ getSubGraph subgraphModel [subE] {}, e.isEdge = true →
      ∀ i ∈ edgeEndpointIds subgraphModel e,
        i ∈ cellIds (getSubGraph subgraphModel [subE] {})) :=
  ⟨by decide, c1_subgraph_closure.2.2 subgraphModel [subE] {} (by decide)⟩

/-- C1 (counterexample): `getSubGraph([A])` does not contain B — a node in
the input pulls in nothing — and on an edge-to-edge model the closure as
claimed fails: the result `[E1, E2, Z]` contains the edge E2 whose source
endpoint X is outside the result. -/
theorem c1_counterexample :
    "B" ∉ cellIds (getSubGraph subgraphModel [subA] {}) ∧
    (cellIds (getSubGraph chainModel [chainE1] {}) = ["E1", "E2", "Z"] ∧
     (collGet chainModel.cells "E2").map Cell.isEdge = some true ∧
     edgeEndpointIds chainModel ((collGet chainModel.cells "E2").getD (mkNode "?"))
       = ["X", "Y"] ∧
     "X" ∉ cellIds (getSubGraph chainModel [chainE1] {})) :=
  ⟨by decide, by decide, by decide, by decide, by decide⟩

/-- Membership in a sorted insertion. -/
lemma mem_insertSorted (l : List Cell) (c : Cell) (x : Cell) :
    x ∈ insertSorted l c ↔ x ∈ l ∨ x = c := by
  induction l with
  | nil => simp [insertSorted]
  | cons y ys ih =>
    rw [insertSorted]
    split
    · simp only [List.mem_cons, ih]
      tauto
    · simp only [List.mem_cons]
      tauto

/-- A sorted insertion of a fresh id preserves id uniqueness. -/
lemma nodup_insertSorted (l : List Cell) (c : Cell)
    (h : (cellIds l).Nodup) (hc : c.id ∉ cellIds l) :
    (cellIds (insertSorted l c)).Nodup := by
  induction l with
  | nil => simp [insertSorted, cellIds]
  | cons y ys ih =>
    simp only [cellIds, List.map_cons, List.nodup_cons, List.mem_cons] at h hc
    push_neg at hc
    rw [insertSorted]
    split
    · simp only [cellIds, List.map_cons, List.nodup_cons]
      constructor
      · intro hy
        have hy2 : y.id ∈ cellIds (insertSorted ys c) := hy
        rw [mem_cellIds_insertSorted] at hy2
        rcases hy2 with h1 | h1
        · exact hc.1 h1.symm
        · exact h.1 h1
      · exact ih h.2 hc.2
    · simp only [cellIds, List.map_cons, List.nodup_cons, List.mem_cons]
      constructor
      · push_neg
        exact ⟨hc.1, hc.2⟩
      · exact h

/-- Membership in a cache after a key insertion. -/
lemma mem_cacheInsert (l : List String) (j i : String) :
    i ∈ cacheInsert l j ↔ i ∈ l ∨ i = j := by
  unfold cacheInsert
  split
  · rename_i hj
    constructor
    · exact Or.inl
    · rintro (h | rfl)
      · exact h
      · exact hj
  · simp

/-- Membership in a cache after a key deletion. -/
lemma mem_cacheDelete (l : List String) (j i : String) :
    i ∈ cacheDelete l j ↔ i ∈ l ∧ i ≠ j := by
  unfold cacheDelete
  simp

/-- With unique ids, two members of the collection sharing an id are the same cell. -/
lemma nodup_id_inj {l : List Cell} (h : (cellIds l).Nodup) {c1 c2 : Cell}
    (h1 : c1 ∈ l) (h2 : c2 ∈ l) (he : c1.id = c2.id) : c1 = c2 := by
  induction l with
  | nil => cases h1
  | cons x xs ih =>
    simp only [cellIds, List.map_cons, List.nodup_cons] at h
    rcases List.mem_cons.mp h1 with rfl | h1' <;>
      rcases List.mem_cons.mp h2 with rfl | h2'
    · rfl
    · apply absurd _ h.1
      rw [he]
      exact List.mem_map_of_mem Cell.id h2'
    · apply absurd _ h.1
      rw [← he]
      exact List.mem_map_of_mem Cell.id h1'
    · exact ih h.2 h1' h2'



/-- Replacing the ownership flag preserves the kind. -/
lemma setOwned_isEdge (c : Cell) (b : Bool) : (c.setOwned b).isEdge = c.isEdge := by
  cases c; rfl

/-- Replacing the z-index preserves the kind. -/
lemma setZIndex_isEdge (c : Cell) (z : Option Int) : (c.setZIndex z).isEdge = c.isEdge := by
  cases c; rfl

/-- The z-index assignment step preserves the kind. -/
lemma prepareZIndex_isEdge (m : ModelState) (c : Cell) :
    (prepareZIndex m c).isEdge = c.isEdge := by
  unfold prepareZIndex
  split <;> simp [setZIndex_isEdge]

/-- `prepareCell` preserves the kind. -/
lemma prepareCell_isEdge (m : ModelState) (c : Cell) (o : AddOptions) :
    (prepareCell m c o).isEdge = c.isEdge := by
  unfold prepareCell
  rw [prepareZIndex_isEdge]
  split <;> simp [setOwned_isEdge]

/-- Replacing the source terminal preserves the id. -/
lemma setSource_id (c : Cell) (t : Option Terminal) : (c.setSource t).id = c.id := by
  cases c; rfl

/-- Replacing the source terminal preserves the kind. -/
lemma setSource_isEdge (c : Cell) (t : Option Terminal) :
    (c.setSource t).isEdge = c.isEdge := by
  cases c; rfl

/-- Replacing the target terminal preserves the id. -/
lemma setTarget_id (c : Cell) (t : Option Terminal) : (c.setTarget t).id = c.id := by
  cases c; rfl

/-- Replacing the target terminal preserves the kind. -/
lemma setTarget_isEdge (c : Cell) (t : Option Terminal) :
    (c.setTarget t).isEdge = c.isEdge := by
  cases c; rfl

/-- The node cache after `Collection.add`. -/
lemma collectionAdd_nodes (m : ModelState) (c : Cell) :
    (collectionAdd m c).nodes =
      if collHas m.cells c.id then m.nodes
      else if c.isEdge then m.nodes else cacheInsert m.nodes c.id := by
  unfold collectionAdd onCellAddedCaches pushEvent
  split
  · rfl
  · split <;> rfl

/-- The edge cache after `Collection.add`. -/
lemma collectionAdd_edges (m : ModelState) (c : Cell) :
    (collectionAdd m c).edges =
      if collHas m.cells c.id then m.edges
      else if c.isEdge then cacheInsert m.edges c.id else m.edges := by
  unfold collectionAdd onCellAddedCaches pushEvent
  split
  · rfl
  · split <;> rfl

/-- `Collection.add` together with `onCellAdded` preserves cache consistency. -/
lemma inv_collectionAdd (m : ModelState) (c : Cell) (h : cachesConsistent m) :
    cachesConsistent (collectionAdd m c) := by
  obtain ⟨hnd, hn, he⟩ := h
  refine ⟨?_, fun i => ?_, fun i => ?_⟩
  · rw [collectionAdd_cells]
    by_cases hc : collHas m.cells c.id = true
    · rw [if_pos hc]; exact hnd
    · rw [if_neg hc]
      exact nodup_insertSorted _ _ hnd (by rw [← collHas_iff]; simpa using hc)
  · rw [collectionAdd_nodes, collectionAdd_cells]
    by_cases hc : collHas m.cells c.id = true
    · rw [if_pos hc, if_pos hc]; exact hn i
    · rw [if_neg hc, if_neg hc]
      by_cases hk : c.isEdge = true
      · rw [if_pos hk, hn i]
        constructor
        · rintro ⟨c2, hc2, hid, hkind⟩
          exact ⟨c2, (mem_insertSorted _ _ _).mpr (Or.inl hc2), hid, hkind⟩
        · rintro ⟨c2, hc2, hid, hkind⟩
          rcases (mem_insertSorted _ _ _).mp hc2 with h1 | rfl
          · exact ⟨c2, h1, hid, hkind⟩
          · rw [hk] at hkind; cases hkind
      · rw [if_neg hk, mem_cacheInsert, hn i]
        constructor
        · rintro (⟨c2, hc2, hid, hkind⟩ | rfl)
          · exact ⟨c2, (mem_insertSorted _ _ _).mpr (Or.inl hc2), hid, hkind⟩
          · exact ⟨c, (mem_insertSorted _ _ _).mpr (Or.inr rfl), rfl, by simpa using hk⟩
        · rintro ⟨c2, hc2, hid, hkind⟩
          rcases (mem_insertSorted _ _ _).mp hc2 with h1 | rfl
          · exact Or.inl ⟨c2, h1, hid, hkind⟩
          · exact Or.inr hid.symm
  · rw [collectionAdd_edges, collectionAdd_cells]
    by_cases hc : collHas m.cells c.id = true
    · rw [if_pos hc, if_pos hc]; exact he i
    · rw [if_neg hc, if_neg hc]
      by_cases hk : c.isEdge = true
      · rw [if_pos hk, mem_cacheInsert, he i]
        constructor
        · rintro (⟨c2, hc2, hid, hkind⟩ | rfl)
          · exact ⟨c2, (mem_insertSorted _ _ _).mpr (Or.inl hc2), hid, hkind⟩
          · exact ⟨c, (mem_insertSorted _ _ _).mpr (Or.inr rfl), rfl, hk⟩
        · rintro ⟨c2, hc2, hid, hkind⟩
          rcases (mem_insertSorted _ _ _).mp hc2 with h1 | rfl
          · exact Or.inl ⟨c2, h1, hid, hkind⟩
          · exact Or.inr hid.symm
      · rw [if_neg hk, he i]
        constructor
        · rintro ⟨c2, hc2, hid, hkind⟩
          exact ⟨c2, (mem_insertSorted _ _ _).mpr (Or.inl hc2), hid, hkind⟩
        · rintro ⟨c2, hc2, hid, hkind⟩
          rcases (mem_insertSorted _ _ _).mp hc2 with h1 | rfl
          · exact ⟨c2, h1, hid, hkind⟩
          · simp [hkind] at hk

/-- The cells after one removal. -/
lemma atomicRemove_cells (m : ModelState) (c : Cell) (opts : RemoveOptions) :
    (atomicRemove m c opts).cells = m.cells.filter (fun x => x.id ≠ c.id) := by
  unfold atomicRemove pushEvent
  split <;> rfl

/-- The node cache after one removal. -/
lemma atomicRemove_nodes (m : ModelState) (c : Cell) (opts : RemoveOptions) :
    (atomicRemove m c opts).nodes =
      if c.isEdge then m.nodes else cacheDelete m.nodes c.id := by
  unfold atomicRemove pushEvent
  split <;> rfl

/-- The edge cache after one removal. -/
lemma atomicRemove_edges (m : ModelState) (c : Cell) (opts : RemoveOptions) :
    (atomicRemove m c opts).edges =
      if c.isEdge then cacheDelete m.edges c.id else m.edges := by
  unfold atomicRemove pushEvent
  split <;> rfl

/-- Membership in the collection after deleting one id. -/
lemma mem_cells_filterId (l : List Cell) (j : String) (x : Cell) :
    x ∈ l.filter (fun y => y.id ≠ j) ↔ x ∈ l ∧ x.id ≠ j := by
  simp [List.mem_filter]

/-- One removal together with `onCellRemoved` preserves cache consistency. -/
lemma inv_atomicRemove (m : ModelState) (c : Cell) (opts : RemoveOptions)
    (hmem : c ∈ m.cells) (h : cachesConsistent m) :
    cachesConsistent (atomicRemove m c opts) := by
  obtain ⟨hnd, hn, he⟩ := h
  refine ⟨?_, fun i => ?_, fun i => ?_⟩
  · rw [atomicRemove_cells]
    exact List.Nodup.sublist ((List.filter_sublist _).map Cell.id) hnd
  · rw [atomicRemove_nodes, atomicRemove_cells]
    by_cases hk : c.isEdge = true
    · rw [if_pos hk, hn i]
      constructor
      · rintro ⟨c2, hc2, hid, hkind⟩
        refine ⟨c2, (mem_cells_filterId _ _ _).mpr ⟨hc2, ?_⟩, hid, hkind⟩
        intro heq
        have hcc := nodup_id_inj hnd hc2 hmem heq
        rw [hcc, hk] at hkind
        cases hkind
      · rintro ⟨c2, hc2, hid, hkind⟩
        exact ⟨c2, ((mem_cells_filterId _ _ _).mp hc2).1, hid, hkind⟩
    · rw [if_neg hk, mem_cacheDelete, hn i]
      constructor
      · rintro ⟨⟨c2, hc2, hid, hkind⟩, hne⟩
        refine ⟨c2, (mem_cells_filterId _ _ _).mpr ⟨hc2, ?_⟩, hid, hkind⟩
        rw [hid]
        exact hne
      · rintro ⟨c2, hc2, hid, hkind⟩
        obtain ⟨hc2m, hc2ne⟩ := (mem_cells_filterId _ _ _).mp hc2
        refine ⟨⟨c2, hc2m, hid, hkind⟩, ?_⟩
        rw [← hid]
        exact hc2ne
  · rw [atomicRemove_edges, atomicRemove_cells]
    by_cases hk : c.isEdge = true
    · rw [if_pos hk, mem_cacheDelete, he i]
      constructor
      · rintro ⟨⟨c2, hc2, hid, hkind⟩, hne⟩
        refine ⟨c2, (mem_cells_filterId _ _ _).mpr ⟨hc2, ?_⟩, hid, hkind⟩
        rw [hid]
        exact hne
      · rintro ⟨c2, hc2, hid, hkind⟩
        obtain ⟨hc2m, hc2ne⟩ := (mem_cells_filterId _ _ _).mp hc2
        refine ⟨⟨c2, hc2m, hid, hkind⟩, ?_⟩
        rw [← hid]
        exact hc2ne
    · rw [if_neg hk, he i]
      constructor
      · rintro ⟨c2, hc2, hid, hkind⟩
        refine ⟨c2, (mem_cells_filterId _ _ _).mpr ⟨hc2, ?_⟩, hid, hkind⟩
        intro heq
        have hcc := nodup_id_inj hnd hc2 hmem heq
        rw [hcc] at hkind
        rw [hkind] at hk
        exact hk rfl
      · rintro ⟨c2, hc2, hid, hkind⟩
        exact ⟨c2, ((mem_cells_filterId _ _ _).mp hc2).1, hid, hkind⟩

/-- Any in-place cell update that preserves ids and kinds preserves cache consistency. -/
lemma inv_mapCells (m : ModelState) (f : Cell → Cell)
    (hid : ∀ c, (f c).id = c.id) (hedge : ∀ c, (f c).isEdge = c.isEdge)
    (h : cachesConsistent m) :
    cachesConsistent { m with cells := m.cells.map f } := by
  obtain ⟨hnd, hn, he⟩ := h
  have hids : cellIds (m.cells.map f) = cellIds m.cells := by
    simp only [cellIds, List.map_map]
    exact List.map_congr_left (fun a _ => hid a)
  refine ⟨?_, fun i => ?_, fun i => ?_⟩
  · show (cellIds (m.cells.map f)).Nodup
    rw [hids]
    exact hnd
  · show i ∈ m.nodes ↔ ∃ c ∈ m.cells.map f, c.id = i ∧ c.isEdge = false
    rw [hn i]
    constructor
    · rintro ⟨c2, hc2, hid2, hk⟩
      exact ⟨f c2, List.mem_map_of_mem f hc2, by rw [hid]; exact hid2,
        by rw [hedge]; exact hk⟩
    · rintro ⟨c2, hc2, hid2, hk⟩
      obtain ⟨c0, hc0, rfl⟩ := List.mem_map.mp hc2
      exact ⟨c0, hc0, by rw [hid] at hid2; exact hid2, by rw [hedge] at hk; exact hk⟩
  · show i ∈ m.edges ↔ ∃ c ∈ m.cells.map f, c.id = i ∧ c.isEdge = true
    rw [he i]
    constructor
    · rintro ⟨c2, hc2, hid2, hk⟩
      exact ⟨f c2, List.mem_map_of_mem f hc2, by rw [hid]; exact hid2,
        by rw [hedge]; exact hk⟩
    · rintro ⟨c2, hc2, hid2, hk⟩
      obtain ⟨c0, hc0, rfl⟩ := List.mem_map.mp hc2
      exact ⟨c0, hc0, by rw [hid] at hid2; exact hid2, by rw [hedge] at hk; exact hk⟩

/-- The source-disconnect substitution preserves the id. -/
lemma updSource_id (eid : String) (x : Cell) :
    (if x.id = eid then x.setSource (some (.pt 0 0)) else x).id = x.id := by
  split <;> simp [setSource_id]

/-- The source-disconnect substitution preserves the kind. -/
lemma updSource_isEdge (eid : String) (x : Cell) :
    (if x.id = eid then x.setSource (some (.pt 0 0)) else x).isEdge = x.isEdge := by
  split <;> simp [setSource_isEdge]

/-- The target-disconnect substitution preserves the id. -/
lemma updTarget_id (eid : String) (x : Cell) :
    (if x.id = eid then x.setTarget (some (.pt 0 0)) else x).id = x.id := by
  split <;> simp [setTarget_id]

/-- The target-disconnect substitution preserves the kind. -/
lemma updTarget_isEdge (eid : String) (x : Cell) :
    (if x.id = eid then x.setTarget (some (.pt 0 0)) else x).isEdge = x.isEdge := by
  split <;> simp [setTarget_isEdge]

/-- The source half of one `disconnectEdges` step preserves cache consistency. -/
lemma inv_sourcePhase (c : Cell) (a : ModelState) (e : Cell)
    (ha : cachesConsistent a) :
    cachesConsistent
      (match getSourceCell a e with
       | some sc =>
         if sc.id = c.id then
           { a with
             cells := a.cells.map (fun x =>
               if x.id = e.id then x.setSource (some (.pt 0 0)) else x) }
         else a
       | none => a) := by
  cases hsc : getSourceCell a e with
  | none => exact ha
  | some sc =>
    show cachesConsistent
      (if sc.id = c.id then
        { a with
          cells := a.cells.map (fun x =>
            if x.id = e.id then x.setSource (some (.pt 0 0)) else x) }
      else a)
    by_cases h2 : sc.id = c.id
    · rw [if_pos h2]
      exact inv_mapCells a _ (updSource_id e.id) (updSource_isEdge e.id) ha
    · rw [if_neg h2]
      exact ha

/-- The target half of one `disconnectEdges` step preserves cache consistency. -/
lemma inv_targetPhase (c : Cell) (a m1 : ModelState) (e : Cell)
    (h1 : cachesConsistent m1) :
    cachesConsistent
      (match getTargetCell a e with
       | some tc =>
         if tc.id = c.id then
           { m1 with
             cells := m1.cells.map (fun x =>
               if x.id = e.id then x.setTarget (some (.pt 0 0)) else x) }
         else m1
       | none => m1) := by
  cases htc : getTargetCell a e with
  | none => exact h1
  | some tc =>
    show cachesConsistent
      (if tc.id = c.id then
        { m1 with
          cells := m1.cells.map (fun x =>
            if x.id = e.id then x.setTarget (some (.pt 0 0)) else x) }
      else m1)
    by_cases h2 : tc.id = c.id
    · rw [if_pos h2]
      exact inv_mapCells m1 _ (updTarget_id e.id) (updTarget_isEdge e.id) h1
    · rw [if_neg h2]
      exact h1

/-- `disconnectEdges` preserves cache consistency. -/
lemma inv_disconnectEdgesOp (m : ModelState) (c : Cell) (h : cachesConsistent m) :
    cachesConsistent (disconnectEdgesOp m c) := by
  unfold disconnectEdgesOp
  refine foldl_inv cachesConsistent _ ?_ _ _ h
  intro a e ha
  exact inv_targetPhase c a _ e (inv_sourcePhase c a e ha)

/-- The removal cascade preserves cache consistency at every amount of fuel. -/
lemma inv_removeCellFuel :
    ∀ fuel (m : ModelState) (id : String) (opts : RemoveOptions),
      cachesConsistent m → cachesConsistent (removeCellFuel fuel m id opts) := by
  intro fuel
  induction fuel with
  | zero => intro m id opts h; exact h
  | succ n ih =>
    intro m id opts h
    rw [removeCellFuel]
    cases hg : collGet m.cells id with
    | none => exact h
    | some c =>
      have hmem : c ∈ m.cells := List.mem_of_find?_eq_some hg
      have h1 : cachesConsistent (atomicRemove m c opts) :=
        inv_atomicRemove m c opts hmem h
      show cachesConsistent
        (if opts.clear = true then atomicRemove m c opts
         else if opts.disconnectEdges = true then
           disconnectEdgesOp (atomicRemove m c opts) c
         else
           List.foldl (fun m2 e => removeCellFuel n m2 e.id opts)
             (atomicRemove m c opts)
             (getConnectedEdges (atomicRemove m c opts) c {}))
      by_cases hclear : opts.clear = true
      · rw [if_pos hclear]
        exact h1
      · rw [if_neg hclear]
        by_cases hdisc : opts.disconnectEdges = true
        · rw [if_pos hdisc]
          exact inv_disconnectEdgesOp _ c h1
        · rw [if_neg hdisc]
          refine foldl_inv cachesConsistent _ ?_ _ _ h1
          intro a b hh
          exact ih a b.id opts hh

/-- `removeCell` preserves cache consistency. -/
lemma inv_removeCell (m : ModelState) (id : String) (opts : RemoveOptions)
    (h : cachesConsistent m) : cachesConsistent (Model.removeCell m id opts) :=
  inv_removeCellFuel _ m id opts h

/-- Recursive insertion preserves cache consistency at every amount of fuel. -/
lemma inv_addCellAux (o : AddOptions) :
    ∀ fuel (c : Cell) (m : ModelState) (addings : List String),
      cachesConsistent m → cachesConsistent (addCellAux o fuel m addings c) := by
  intro fuel
  induction fuel with
  | zero => intro c m addings h; exact h
  | succ n ih =>
    intro c m addings h
    rw [addCellAux]
    split
    · refine foldl_inv cachesConsistent _ ?_ _ _ (inv_collectionAdd _ _ h)
      intro a b hh
      exact ih b a (c.id :: addings) hh
    · exact h

/-- `addCell` preserves cache consistency. -/
lemma inv_addCell (m : ModelState) (c : Cell) (o : AddOptions)
    (h : cachesConsistent m) : cachesConsistent (Model.addCell m c o) :=
  inv_addCellAux o _ c m [] h

/-- `startBatch` does not touch the collection or the caches. -/
lemma inv_startBatch (m : ModelState) (name : String) (h : cachesConsistent m) :
    cachesConsistent (startBatch m name) := h

/-- `stopBatch` does not touch the collection or the caches. -/
lemma inv_stopBatch (m : ModelState) (name : String) (h : cachesConsistent m) :
    cachesConsistent (stopBatch m name) := h

/-- `clear` preserves cache consistency. -/
lemma inv_clearOp (m : ModelState) (h : cachesConsistent m) :
    cachesConsistent (clearOp m) := by
  unfold clearOp
  show cachesConsistent
    (if m.cells.length = 0 then m
     else
       stopBatch
         ((jsSort clearComparator m.cells).foldl
           (fun m2 c => Model.removeCell m2 c.id { clear := true })
           (startBatch m "clear")) "clear")
  by_cases hlen : m.cells.length = 0
  · rw [if_pos hlen]
    exact h
  · rw [if_neg hlen]
    apply inv_stopBatch
    refine foldl_inv cachesConsistent _ ?_ _ _ (inv_startBatch m "clear" h)
    intro a b hh
    exact inv_removeCell a b.id { clear := true } hh

/-- Membership in a fold of sorted insertions. -/
lemma mem_foldl_insertSorted :
    ∀ (l acc : List Cell) (x : Cell),
      x ∈ l.foldl insertSorted acc ↔ x ∈ acc ∨ x ∈ l := by
  intro l
  induction l with
  | nil => intro acc x; simp
  | cons c rest ih =>
    intro acc x
    simp only [List.foldl_cons]
    rw [ih, mem_insertSorted]
    simp only [List.mem_cons]
    tauto

/-- A fold of sorted insertions of pairwise fresh ids keeps ids unique. -/
lemma nodup_foldl_insertSorted :
    ∀ (l acc : List Cell),
      (cellIds acc).Nodup → (cellIds l).Nodup →
      (∀ i, i ∈ cellIds l → i ∉ cellIds acc) →
      (cellIds (l.foldl insertSorted acc)).Nodup := by
  intro l
  induction l with
  | nil => intro acc ha _ _; exact ha
  | cons c rest ih =>
    intro acc ha hl hd
    simp only [List.foldl_cons]
    simp only [cellIds, List.map_cons, List.nodup_cons] at hl
    apply ih
    · exact nodup_insertSorted acc c ha (hd c.id (by simp [cellIds]))
    · exact hl.2
    · intro i hi hmem
      have h2 : i ∈ cellIds (insertSorted acc c) := hmem
      rw [mem_cellIds_insertSorted] at h2
      rcases h2 with rfl | h2
      · exact hl.1 hi
      · refine hd i ?_ h2
        simp only [cellIds, List.map_cons, List.mem_cons]
        exact Or.inr hi

/-- The id dedup produces unique ids, all outside the seen set. -/
lemma dedupById_nodup :
    ∀ (l : List Cell) (seen : List String),
      (cellIds (dedupById l seen)).Nodup ∧
      ∀ i ∈ cellIds (dedupById l seen), i ∉ seen := by
  intro l
  induction l with
  | nil =>
    intro seen
    exact ⟨List.nodup_nil, by simp [dedupById, cellIds]⟩
  | cons c rest ih =>
    intro seen
    rw [dedupById]
    split
    · exact ih seen
    · rename_i hc
      obtain ⟨h1, h2⟩ := ih (c.id :: seen)
      constructor
      · simp only [cellIds, List.map_cons, List.nodup_cons]
        refine ⟨?_, h1⟩
        intro hmem
        exact (h2 c.id hmem) (List.mem_cons_self _ _)
      · intro i hi
        simp only [cellIds, List.map_cons, List.mem_cons] at hi
        rcases hi with rfl | hi
        · exact hc
        · intro hsi
          exact (h2 i hi) (List.mem_cons_of_mem _ hsi)

/-- `onCellAdded` does not touch the collection. -/
lemma onCellAddedCaches_cells (m : ModelState) (c : Cell) :
    (onCellAddedCaches m c).cells = m.cells := by
  unfold onCellAddedCaches
  split <;> rfl

/-- Folding `onCellAdded` does not touch the collection. -/
lemma foldCaches_cells :
    ∀ (l : List Cell) (m0 : ModelState),
      (l.foldl onCellAddedCaches m0).cells = m0.cells := by
  intro l
  induction l with
  | nil => intro m0; rfl
  | cons c rest ih =>
    intro m0
    simp only [List.foldl_cons]
    rw [ih, onCellAddedCaches_cells]

/-- The node cache after one `onCellAdded`. -/
lemma onCellAddedCaches_nodes (m : ModelState) (c : Cell) :
    (onCellAddedCaches m c).nodes =
      if c.isEdge then m.nodes else cacheInsert m.nodes c.id := by
  unfold onCellAddedCaches
  split <;> rfl

/-- The edge cache after one `onCellAdded`. -/
lemma onCellAddedCaches_edges (m : ModelState) (c : Cell) :
    (onCellAddedCaches m c).edges =
      if c.isEdge then cacheInsert m.edges c.id else m.edges := by
  unfold onCellAddedCaches
  split <;> rfl

/-- Cache membership after folding `onCellAdded` over a list of cells. -/
lemma foldCaches_mem :
    ∀ (l : List Cell) (m0 : ModelState) (i : String),
      (i ∈ (l.foldl onCellAddedCaches m0).nodes ↔
        i ∈ m0.nodes ∨ ∃ c ∈ l, c.id = i ∧ c.isEdge = false) ∧
      (i ∈ (l.foldl onCellAddedCaches m0).edges ↔
        i ∈ m0.edges ∨ ∃ c ∈ l, c.id = i ∧ c.isEdge = true) := by
  intro l
  induction l with
  | nil => intro m0 i; simp
  | cons c rest ih =>
    intro m0 i
    simp only [List.foldl_cons]
    obtain ⟨ihn, ihe⟩ := ih (onCellAddedCaches m0 c) i
    constructor
    · rw [ihn, onCellAddedCaches_nodes]
      by_cases hk : c.isEdge = true
      · rw [if_pos hk]
        constructor
        · rintro (h1 | ⟨c2, hc2, hid, hkind⟩)
          · exact Or.inl h1
          · exact Or.inr ⟨c2, List.mem_cons_of_mem _ hc2, hid, hkind⟩
        · rintro (h1 | ⟨c2, hc2, hid, hkind⟩)
          · exact Or.inl h1
          · rcases List.mem_cons.mp hc2 with rfl | hc2m
            · rw [hk] at hkind; cases hkind
            · exact Or.inr ⟨c2, hc2m, hid, hkind⟩
      · rw [if_neg hk, mem_cacheInsert]
        constructor
        · rintro ((h1 | rfl) | ⟨c2, hc2, hid, hkind⟩)
          · exact Or.inl h1
          · exact Or.inr ⟨c, List.mem_cons_self _ _, rfl, by simpa using hk⟩
          · exact Or.inr ⟨c2, List.mem_cons_of_mem _ hc2, hid, hkind⟩
        · rintro (h1 | ⟨c2, hc2, hid, hkind⟩)
          · exact Or.inl (Or.inl h1)
          · rcases List.mem_cons.mp hc2 with rfl | hc2m
            · exact Or.inl (Or.inr hid.symm)
            · exact Or.inr ⟨c2, hc2m, hid, hkind⟩
    · rw [ihe, onCellAddedCaches_edges]
      by_cases hk : c.isEdge = true
      · rw [if_pos hk, mem_cacheInsert]
        constructor
        · rintro ((h1 | rfl) | ⟨c2, hc2, hid, hkind⟩)
          · exact Or.inl h1
          · exact Or.inr ⟨c, List.mem_cons_self _ _, rfl, hk⟩
          · exact Or.inr ⟨c2, List.mem_cons_of_mem _ hc2, hid, hkind⟩
        · rintro (h1 | ⟨c2, hc2, hid, hkind⟩)
          · exact Or.inl (Or.inl h1)
          · rcases List.mem_cons.mp hc2 with rfl | hc2m
            · exact Or.inl (Or.inr hid.symm)
            · exact Or.inr ⟨c2, hc2m, hid, hkind⟩
      · rw [if_neg hk]
        constructor
        · rintro (h1 | ⟨c2, hc2, hid, hkind⟩)
          · exact Or.inl h1
          · exact Or.inr ⟨c2, List.mem_cons_of_mem _ hc2, hid, hkind⟩
        · rintro (h1 | ⟨c2, hc2, hid, hkind⟩)
          · exact Or.inl h1
          · rcases List.mem_cons.mp hc2 with rfl | hc2m
            · rw [hkind] at hk; exact absurd rfl hk
            · exact Or.inr ⟨c2, hc2m, hid, hkind⟩

/-- `resetCells` establishes cache consistency outright. -/
lemma inv_resetCellsOp (m : ModelState) (cells : List Cell) (o : AddOptions) :
    cachesConsistent (resetCellsOp m cells o) := by
  unfold resetCellsOp
  show cachesConsistent
    ((dedupById (cells.map (fun c => prepareCell m c o)) []).foldl onCellAddedCaches
      { m with
        cells :=
          (dedupById (cells.map (fun c => prepareCell m c o)) []).foldl insertSorted []
        nodes := []
        edges := [] })
  generalize hD : dedupById (cells.map (fun c => prepareCell m c o)) [] = D
  have hnd : (cellIds D).Nodup := by
    have h1 := (dedupById_nodup (cells.map (fun c => prepareCell m c o)) []).1
    rwa [hD] at h1
  refine ⟨?_, fun i => ?_, fun i => ?_⟩
  · rw [foldCaches_cells]
    exact nodup_foldl_insertSorted D [] List.nodup_nil hnd (by simp [cellIds])
  · rw [(foldCaches_mem D _ i).1, foldCaches_cells]
    constructor
    · rintro (h1 | ⟨c2, hc2, hid, hkind⟩)
      · cases h1
      · exact ⟨c2, (mem_foldl_insertSorted D [] c2).mpr (Or.inr hc2), hid, hkind⟩
    · rintro ⟨c2, hc2, hid, hkind⟩
      rcases (mem_foldl_insertSorted D [] c2).mp hc2 with h1 | h1
      · cases h1
      · exact Or.inr ⟨c2, h1, hid, hkind⟩
  · rw [(foldCaches_mem D _ i).2, foldCaches_cells]
    constructor
    · rintro (h1 | ⟨c2, hc2, hid, hkind⟩)
      · cases h1
      · exact ⟨c2, (mem_foldl_insertSorted D [] c2).mpr (Or.inr hc2), hid, hkind⟩
    · rintro ⟨c2, hc2, hid, hkind⟩
      rcases (mem_foldl_insertSorted D [] c2).mp hc2 with h1 | h1
      · cases h1
      · exact Or.inr ⟨c2, h1, hid, hkind⟩

/-- Every reachable model state has consistent caches. -/
lemma inv_reachable (m : ModelState) (h : Reachable m) : cachesConsistent m := by
  induction h with
  | init => refine ⟨List.nodup_nil, fun i => ?_, fun i => ?_⟩ <;> simp [emptyModel]
  | addCell m c o _ ih => exact inv_addCell m c o ih
  | removeCell m id opts _ ih => exact inv_removeCell m id opts ih
  | resetCells m cells o _ _ => exact inv_resetCellsOp m cells o
  | clear m _ ih => exact inv_clearOp m ih

/-- C7: in every model state reachable through addCell, removeCell, resetCells and clear, the node and edge caches are disjoint and their union is exactly the id set of the collection. -/
theorem c7_membership_partition (m : ModelState) (h : Reachable m) :
    (∀ i, ¬(i ∈ m.nodes ∧ i ∈ m.edges)) ∧
    (∀ i, (i ∈ m.nodes ∨ i ∈ m.edges) ↔ i ∈ cellIds m.cells) := by
  obtain ⟨hnd, hn, he⟩ := inv_reachable m h
  constructor
  · rintro i ⟨hin, hie⟩
    obtain ⟨c1, hc1, hid1, hk1⟩ := (hn i).mp hin
    obtain ⟨c2, hc2, hid2, hk2⟩ := (he i).mp hie
    have heq : c1 = c2 := nodup_id_inj hnd hc1 hc2 (hid1.trans hid2.symm)
    rw [heq, hk2] at hk1
    cases hk1
  · intro i
    constructor
    · rintro (h1 | h1)
      · obtain ⟨c1, hc1, hid1, hu⟩ := (hn i).mp h1
        rw [← hid1]
        exact List.mem_map_of_mem Cell.id hc1
      · obtain ⟨c1, hc1, hid1, hu⟩ := (he i).mp h1
        rw [← hid1]
        exact List.mem_map_of_mem Cell.id hc1
    · intro h1
      obtain ⟨c1, hc1, hid1⟩ := List.mem_map.mp h1
      by_cases hk : c1.isEdge = true
      · exact Or.inr ((he i).mpr ⟨c1, hc1, hid1, hk⟩)
      · exact Or.inl ((hn i).mpr ⟨c1, hc1, hid1, by simpa using hk⟩)

/-- Witness for C7 on the state reached by adding one node to a fresh model. -/
theorem c7_witness :
    ¬("n" ∈ (Model.addCell emptyModel (mkNode "n") {}).nodes ∧
      "n" ∈ (Model.addCell emptyModel (mkNode "n") {}).edges) ∧
    (("n" ∈ (Model.addCell emptyModel (mkNode "n") {}).nodes ∨
      "n" ∈ (Model.addCell emptyModel (mkNode "n") {}).edges) ↔
     "n" ∈ cellIds (Model.addCell emptyModel (mkNode "n") {}).cells) :=
  ⟨(c7_membership_partition _ (Reachable.addCell _ _ _ Reachable.init)).1 "n",
   (c7_membership_partition _ (Reachable.addCell _ _ _ Reachable.init)).2 "n"⟩

end X6
